import Mathlib

/-!
Verification development for the LM-Studio tool-calling orchestration
engine (files `server.py` and `lm_browse.py`).

The Python source is shallowly embedded over `List Char` (one entry per
Unicode code point, matching Python's `str` indexing and `len`).  External
effects (the model backend, the DuckDuckGo search provider, the URL-fetch
provider) are passed in as oracle functions; an exception escaping a
Python function is modelled by `Except.error` carrying the exception's
message.

Modelling notes, stated once here:
* Python dicts for chat messages are modelled by structures whose
  `Option` fields encode key absence / `None`.
* `json.loads` is modelled by `parseJsonObj`, a parser for the JSON
  fragment this program actually exchanges with the model: one top-level
  object whose values are strings (with `\" \\ \/ \n \t \r \b \f`
  escapes), integers, or `null`.  Inputs outside this fragment make the
  parser fail, which the callers treat exactly as Python treats a
  `json.JSONDecodeError`.
* `json.dumps` is modelled by renderers using CPython's default
  separators (`", "` and `": "`).
-/

/-! ## Generic text utilities (Python string semantics) -/

/-- Abbreviation: Python strings are lists of code points. -/
abbrev LC := List Char

/-- Python slice `l[:n]` for an `int` bound `n`: a negative bound drops
`|n|` elements from the end, a non-negative bound takes a prefix. -/
def pyTake (n : Int) (l : List α) : List α :=
  if 0 ≤ n then l.take n.toNat else l.take (l.length - n.natAbs)

/-- Python `str.isspace` set used by `str.strip()` (ASCII part). -/
def isWsChar (c : Char) : Bool :=
  c = ' ' || c = '\t' || c = '\n' || c = '\x0d' || c = '\x0b' || c = '\x0c'

/-- Python `str.strip()` with no argument: trim whitespace on both ends. -/
def trimPy (s : LC) : LC :=
  ((s.dropWhile isWsChar).reverse.dropWhile isWsChar).reverse

/-- Python `str.rstrip(chars)`: drop trailing characters that belong to
`chars`. -/
def rstripSet (chars : LC) (s : LC) : LC :=
  (s.reverse.dropWhile (fun c => chars.contains c)).reverse

/-- Python `str.lower()` restricted to ASCII letters (the program only
lower-cases ASCII trigger phrases and URLs). -/
def asciiLowerC (c : Char) : Char :=
  if 'A' ≤ c && c ≤ 'Z' then Char.ofNat (c.toNat + 32) else c

/-- Python `str.lower()` over a whole string. -/
def asciiLower (s : LC) : LC := s.map asciiLowerC

/-- Python substring test `pat in s` (`True` on the empty pattern). -/
def hasSub (pat : LC) : LC → Bool
  | [] => pat.isEmpty
  | c :: cs => pat.isPrefixOf (c :: cs) || hasSub pat cs

/-- `hasSub` decides the infix relation. -/
theorem hasSub_iff (pat s : LC) : hasSub pat s = true ↔ pat <:+: s := by
  induction s with
  | nil => simp [hasSub, List.isEmpty_iff, List.infix_nil]
  | cons c cs ih =>
      simp only [hasSub, Bool.or_eq_true, List.isPrefixOf_iff_prefix, ih]
      exact (List.infix_cons_iff).symm

/-- Digits of a natural number, used to build `markup-<index>` ids and to
render integers in `json.dumps` output. -/
def natDigits (n : Nat) : LC := (Nat.repr n).toList

/-- Python `str(int)` / `json.dumps(int)` rendering. -/
def intDigits (i : Int) : LC := (Int.repr i).toList

/-! ## JSON model (`json.loads` / `json.dumps` fragment) -/

/-- JSON values this program exchanges: strings, integers, `null`. -/
inductive JVal where
  | str (s : LC)
  | num (n : Int)
  | null
deriving DecidableEq, Repr

/-- A decoded JSON object: ordered key/value pairs as produced by the
parser (CPython keeps the last duplicate, see `jGet`). -/
abbrev JObj := List (LC × JVal)

/-- Python `dict.get(k, default)` on a decoded object: with duplicate
keys CPython's dict keeps the last binding. -/
def jGet (o : JObj) (k : LC) (dflt : JVal) : JVal :=
  match o.reverse.find? (fun p => p.1 = k) with
  | some p => p.2
  | none => dflt

/-- Python `dict.get(k)` (no default) on a decoded object. -/
def jGet? (o : JObj) (k : LC) : Option JVal :=
  (o.reverse.find? (fun p => p.1 = k)).map (·.2)

/-- JSON escape decoding for the short escapes (`\uXXXX` is outside the
modelled fragment). -/
def escChar (e : Char) : Option Char :=
  if e = '"' ∨ e = '\\' ∨ e = '/' then some e
  else if e = 'n' then some '\n'
  else if e = 't' then some '\t'
  else if e = 'r' then some '\x0d'
  else if e = 'b' then some '\x08'
  else if e = 'f' then some '\x0c'
  else none

/-- JSON whitespace. -/
def isJWs (c : Char) : Bool :=
  c = ' ' || c = '\t' || c = '\n' || c = '\x0d'

/-- Skip JSON whitespace. -/
def skipWs (s : LC) : LC := s.dropWhile isJWs

/-- Parse the body of a JSON string, after the opening quote; returns the
decoded text and the rest after the closing quote. -/
def parseStringBody : LC → Option (LC × LC)
  | [] => none
  | c :: rest =>
    if c = '"' then some ([], rest)
    else if c = '\\' then
      match rest with
      | [] => none
      | e :: rest2 =>
        match escChar e, parseStringBody rest2 with
        | some d, some (sfx, r) => some (d :: sfx, r)
        | _, _ => none
    else if c.toNat < 32 then none
    else
      match parseStringBody rest with
      | some (sfx, r) => some (c :: sfx, r)
      | none => none

theorem parseStringBody_lt (s : LC) : ∀ d r,
    parseStringBody s = some (d, r) → r.length < s.length := by
  induction s using parseStringBody.induct with
  | case1 => intro d r h; rw [parseStringBody.eq_def] at h; simp at h
  | case2 rest =>
      intro d r h
      rw [parseStringBody.eq_def] at h
      simp at h
      obtain ⟨-, h2⟩ := h
      subst h2
      simp
  | case3 hne =>
      intro d r h
      rw [parseStringBody.eq_def] at h
      simp at h
  | case4 e rest2 d0 sfx r0 hrec hesc hne ih =>
      intro d r h
      rw [parseStringBody.eq_def] at h
      simp [hesc, hrec] at h
      obtain ⟨-, h2⟩ := h
      subst h2
      have := ih sfx r0 hrec
      simp only [List.length_cons]
      omega
  | case5 e rest2 hfail hne ih =>
      intro d r h
      exfalso
      rw [parseStringBody.eq_def] at h
      cases hesc : escChar e with
      | none => simp [hesc] at h
      | some d0 =>
        cases hrec : parseStringBody rest2 with
        | none => simp [hesc, hrec] at h
        | some p => exact hfail d0 p.1 p.2 hesc (by simpa using hrec)
  | case6 c rest hq hb hctl =>
      intro d r h
      rw [parseStringBody.eq_def] at h
      simp [hq, hb, hctl] at h
  | case7 c rest hq hb hctl sfx r0 hrec ih =>
      intro d r h
      rw [parseStringBody.eq_def] at h
      simp [hq, hb, hctl, hrec] at h
      obtain ⟨-, h2⟩ := h
      subst h2
      have := ih sfx r0 hrec
      simp only [List.length_cons]
      omega
  | case8 c rest hq hb hctl hfail ih =>
      intro d r h
      rw [parseStringBody.eq_def] at h
      simp [hq, hb, hctl, hfail] at h

/-- Digit test. -/
def isDigitC (c : Char) : Bool := '0' ≤ c && c ≤ '9'

/-- Parse a non-empty digit run into a `Nat`. -/
def parseDigits (s : LC) : Option (Nat × LC) :=
  if (s.takeWhile isDigitC).isEmpty then none
  else some ((s.takeWhile isDigitC).foldl (fun a c => a * 10 + (c.toNat - 48)) 0,
    s.dropWhile isDigitC)

/-- Parse a JSON integer (optional minus, digits, no leading zero, no
fraction/exponent — the modelled fragment). -/
def parseNumber (s : LC) : Option (Int × LC) :=
  match s with
  | '-' :: rest =>
      match parseDigits rest with
      | some (n, r) =>
          if leadingZeroBad rest then none
          else if numTailBad r then none
          else some (-(n : Int), r)
      | none => none
  | _ =>
      match parseDigits s with
      | some (n, r) =>
          if leadingZeroBad s then none
          else if numTailBad r then none
          else some ((n : Int), r)
      | none => none
where
  /-- CPython's json rejects a leading zero followed by more digits. -/
  leadingZeroBad : LC → Bool
    | '0' :: d :: _ => isDigitC d
    | _ => false
  /-- A fraction or exponent marker puts the number outside the fragment. -/
  numTailBad : LC → Bool
    | c :: _ => c = '.' || c = 'e' || c = 'E'
    | [] => false

theorem parseDigits_lt (s : LC) (n : Nat) (r : LC)
    (h : parseDigits s = some (n, r)) : r.length < s.length := by
  unfold parseDigits at h
  split at h
  · exact absurd h (by simp)
  · rename_i hne
    simp only [Option.some.injEq, Prod.mk.injEq] at h
    obtain ⟨-, h2⟩ := h
    subst h2
    have hlen : (s.takeWhile isDigitC).length + (s.dropWhile isDigitC).length = s.length := by
      rw [← List.length_append, List.takeWhile_append_dropWhile]
    have : 0 < (s.takeWhile isDigitC).length := by
      cases hh : s.takeWhile isDigitC with
      | nil => rw [hh] at hne; simp at hne
      | cons a t => simp [hh]
    omega

theorem parseNumber_lt (s : LC) (n : Int) (r : LC)
    (h : parseNumber s = some (n, r)) : r.length < s.length := by
  unfold parseNumber at h
  split at h
  · rename_i rest
    split at h
    · rename_i n0 r0 hd
      split at h
      · exact absurd h (by simp)
      · split at h
        · exact absurd h (by simp)
        · simp only [Option.some.injEq, Prod.mk.injEq] at h
          obtain ⟨-, h2⟩ := h
          subst h2
          have := parseDigits_lt rest n0 r0 hd
          simp only [List.length_cons]
          omega
    · exact absurd h (by simp)
  · split at h
    · rename_i n0 r0 hd
      split at h
      · exact absurd h (by simp)
      · split at h
        · exact absurd h (by simp)
        · simp only [Option.some.injEq, Prod.mk.injEq] at h
          obtain ⟨-, h2⟩ := h
          subst h2
          exact parseDigits_lt s n0 r0 hd
    · exact absurd h (by simp)

/-- Parse a JSON value of the modelled fragment: string, integer or
`null`. -/
def parseValue (s : LC) : Option (JVal × LC) :=
  match s with
  | [] => (parseNumber []).map (fun p => (JVal.num p.1, p.2))
  | c :: rest =>
    if c = '"' then (parseStringBody rest).map (fun p => (JVal.str p.1, p.2))
    else if "null".toList.isPrefixOf (c :: rest) then some (JVal.null, rest.drop 3)
    else (parseNumber (c :: rest)).map (fun p => (JVal.num p.1, p.2))

theorem parseValue_lt (s : LC) (v : JVal) (r : LC)
    (h : parseValue s = some (v, r)) : r.length < s.length := by
  cases s with
  | nil =>
      unfold parseValue at h
      cases hn : parseNumber [] with
      | none => rw [hn] at h; exact absurd h (by simp)
      | some p =>
          rw [hn] at h
          simp only [Option.map, Option.some.injEq, Prod.mk.injEq] at h
          obtain ⟨-, h2⟩ := h
          subst h2
          exact parseNumber_lt [] p.1 p.2 (by simpa using hn)
  | cons c rest =>
      unfold parseValue at h
      dsimp only at h
      by_cases hc : c = '"'
      · rw [if_pos hc] at h
        cases hb : parseStringBody rest with
        | none => rw [hb] at h; exact absurd h (by simp)
        | some p =>
            rw [hb] at h
            simp only [Option.map, Option.some.injEq, Prod.mk.injEq] at h
            obtain ⟨-, h2⟩ := h
            subst h2
            have := parseStringBody_lt rest p.1 p.2 (by simpa using hb)
            simp only [List.length_cons]
            omega
      · rw [if_neg hc] at h
        by_cases hp : "null".toList.isPrefixOf (c :: rest) = true
        · rw [if_pos hp] at h
          simp only [Option.some.injEq, Prod.mk.injEq] at h
          obtain ⟨-, h2⟩ := h
          subst h2
          have := (List.drop_sublist 3 rest).length_le
          simp only [List.length_cons]
          omega
        · rw [if_neg (by simpa using hp)] at h
          cases hn : parseNumber (c :: rest) with
          | none => rw [hn] at h; exact absurd h (by simp)
          | some p =>
              rw [hn] at h
              simp only [Option.map, Option.some.injEq, Prod.mk.injEq] at h
              obtain ⟨-, h2⟩ := h
              subst h2
              exact parseNumber_lt (c :: rest) p.1 p.2 (by simpa using hn)

/-- Parse one `"key" : value` member, leading whitespace allowed. -/
def parsePair (s : LC) : Option ((LC × JVal) × LC) :=
  match skipWs s with
  | [] => none
  | c :: rest =>
    if c = '"' then
      match parseStringBody rest with
      | some (k, r1) =>
          (match skipWs r1 with
           | [] => none
           | c2 :: r3 =>
             if c2 = ':' then
               match parseValue (skipWs r3) with
               | some (v, r4) => some ((k, v), r4)
               | none => none
             else none)
      | none => none
    else none

theorem skipWs_le (s : LC) : (skipWs s).length ≤ s.length :=
  (List.dropWhile_sublist _).length_le

theorem parsePair_lt (s : LC) (p : LC × JVal) (r : LC)
    (h : parsePair s = some (p, r)) : r.length < s.length := by
  unfold parsePair at h
  cases hws : skipWs s with
  | nil => rw [hws] at h; exact absurd h (by simp)
  | cons c rest =>
      rw [hws] at h
      dsimp only at h
      have hle : rest.length < s.length := by
        have := skipWs_le s
        rw [hws] at this
        simp only [List.length_cons] at this
        omega
      by_cases hc : c = '"'
      · rw [if_pos hc] at h
        cases hb : parseStringBody rest with
        | none => rw [hb] at h; exact absurd h (by simp)
        | some kp =>
            obtain ⟨k, r1⟩ := kp
            rw [hb] at h
            dsimp only at h
            have h1 := parseStringBody_lt rest k r1 hb
            cases hws2 : skipWs r1 with
            | nil => rw [hws2] at h; exact absurd h (by simp)
            | cons c2 r3 =>
                rw [hws2] at h
                dsimp only at h
                by_cases hc2 : c2 = ':'
                · rw [if_pos hc2] at h
                  have h2 : r3.length < r1.length := by
                    have := skipWs_le r1
                    rw [hws2] at this
                    simp only [List.length_cons] at this
                    omega
                  cases hv : parseValue (skipWs r3) with
                  | none => rw [hv] at h; exact absurd h (by simp)
                  | some vp =>
                      obtain ⟨v, r4⟩ := vp
                      rw [hv] at h
                      dsimp only at h
                      simp only [Option.some.injEq, Prod.mk.injEq] at h
                      obtain ⟨-, h5⟩ := h
                      subst h5
                      have h3 := parseValue_lt (skipWs r3) v r4 hv
                      have h4 := skipWs_le r3
                      omega
                · rw [if_neg hc2] at h
                  exact absurd h (by simp)
      · rw [if_neg hc] at h
        exact absurd h (by simp)

/-- Parse the members of an object after the first pair: either a closing
brace or a comma followed by another pair, repeatedly.  Structural
recursion on a fuel bound (`parsePair` consumes characters, so any fuel
above the input length is enough; see `parseMembersLoopF_irrel`). -/
def parseMembersLoopF : Nat → LC → JObj → Option (JObj × LC)
  | 0, _, _ => none
  | f + 1, s, acc =>
      match skipWs s with
      | [] => none
      | w :: r =>
          if w = '}' then some (acc.reverse, r)
          else if w = ',' then
            match parsePair r with
            | some (p, r4) => parseMembersLoopF f r4 (p :: acc)
            | none => none
          else none

/-- The members loop with its canonical fuel. -/
def parseMembersLoop (s : LC) (acc : JObj) : Option (JObj × LC) :=
  parseMembersLoopF (s.length + 1) s acc

theorem parseMembersLoopF_irrel : ∀ f1 f2 s acc, s.length < f1 → s.length < f2 →
    parseMembersLoopF f1 s acc = parseMembersLoopF f2 s acc := by
  intro f1
  induction f1 with
  | zero => intro f2 s acc h1 h2; omega
  | succ f ih =>
      intro f2 s acc h1 h2
      cases f2 with
      | zero => omega
      | succ g =>
          unfold parseMembersLoopF
          cases hw : skipWs s with
          | nil => rfl
          | cons w ws =>
              have hwlen : ws.length < s.length := by
                have := skipWs_le s
                rw [hw] at this
                simp only [List.length_cons] at this
                omega
              dsimp only
              by_cases hw1 : w = '}'
              · rw [if_pos hw1, if_pos hw1]
              · rw [if_neg hw1, if_neg hw1]
                by_cases hw2 : w = ','
                · rw [if_pos hw2, if_pos hw2]
                  cases hp : parsePair ws with
                  | none => rfl
                  | some p =>
                      obtain ⟨p0, r4⟩ := p
                      have := parsePair_lt ws p0 r4 hp
                      exact ih g r4 (p0 :: acc) (by omega) (by omega)
                · rw [if_neg hw2, if_neg hw2]

/-- Embedding of `json.loads` restricted to the modelled fragment: one
top-level JSON object, nothing but whitespace after it. -/
def parseJsonObj (s : LC) : Option JObj :=
  match skipWs s with
  | [] => none
  | c :: r =>
    if c = '{' then
      match skipWs r with
      | [] =>
          match parsePair r with
          | some (p, r4) =>
              match parseMembersLoop r4 [p] with
              | some (obj, rest) => if (skipWs rest).isEmpty then some obj else none
              | none => none
          | none => none
      | c2 :: r2 =>
        if c2 = '}' then (if (skipWs r2).isEmpty then some [] else none)
        else
          match parsePair r with
          | some (p, r4) =>
              match parseMembersLoop r4 [p] with
              | some (obj, rest) => if (skipWs rest).isEmpty then some obj else none
              | none => none
          | none => none
    else none

/-- `json.dumps` string escaping (ASCII fragment of CPython's default). -/
def dumpsEsc (c : Char) : LC :=
  if c = '"' then ['\\', '"']
  else if c = '\\' then ['\\', '\\']
  else if c = '\n' then ['\\', 'n']
  else if c = '\t' then ['\\', 't']
  else if c = '\x0d' then ['\\', 'r']
  else if c.toNat < 32 then
    '\\' :: 'u' :: '0' :: '0' :: natDigits (c.toNat / 16) ++ natDigits (c.toNat % 16)
  else [c]

/-- `json.dumps` of a string. -/
def dumpsStr (s : LC) : LC := '"' :: (s.flatMap dumpsEsc) ++ ['"']

/-- `json.dumps` of an optional string (`None` renders as `null`). -/
def dumpsOptStr : Option LC → LC
  | some s => dumpsStr s
  | none => "null".toList

/-- `json.dumps` of a `JVal`. -/
def dumpsJVal : JVal → LC
  | .str s => dumpsStr s
  | .num n => intDigits n
  | .null => "null".toList

/-- Join with CPython's default item separator. -/
def joinComma : List LC → LC
  | [] => []
  | [x] => x
  | x :: rest => x ++ ',' :: ' ' :: joinComma rest

/-! ## Chat message model -/

/-- One entry of an OpenAI content-block list: either a dict carrying a
`text` key, or any other element (rendered through `str(p)`, kept
abstract as its rendering). -/
inductive Block where
  | textB (t : LC)
  | otherB (srepr : LC)
deriving DecidableEq, Repr

/-- A message `content` value that is not absent: a plain string or a
list of content blocks.  Python `None`/absent is `Option.none` one level
up. -/
inductive Content where
  | str (s : LC)
  | blocks (bs : List Block)
deriving DecidableEq, Repr

/-- `_as_text` / `as_text` from the source: flatten block lists, map
`None` and `""` to `""`. -/
def as_text : Option Content → LC
  | some (.str s) => s
  | some (.blocks bs) => bs.flatMap (fun b => match b with
      | .textB t => t
      | .otherB r => r)
  | none => []

/-- One element of an OpenAI `tool_calls` list, with the `function`
sub-dict flattened (`fname`/`fargs` are its `name`/`arguments` keys;
a missing `function` dict behaves like both keys missing). -/
structure OTC where
  id : Option LC := none
  fname : Option LC := none
  fargs : Option LC := none
deriving DecidableEq, Repr

/-- A chat message dict as built by this program: `Option` fields encode
absent keys, `tool_calls := []` encodes an absent/empty list (both are
falsy and are treated identically by the source). -/
structure Msg where
  role : LC
  content : Option Content := none
  tool_call_id : Option LC := none
  name : Option LC := none
  tool_calls : List OTC := []
deriving DecidableEq, Repr

/-- The message dict inside one backend `choices` entry.  `truthy` is the
Python truthiness of the dict itself (`{}`, as produced when `choices`
is empty, is falsy). -/
structure BMsg where
  truthy : Bool
  content : Option Content := none
  tool_calls : List OTC := []
deriving DecidableEq, Repr

/-! ## `strip_lm_tags` (the `_TAG_RE` substitution) -/

/-- Does `_TAG_RE` match at the head of `s`?  If so, return the rest
after the match.  The regex alternatives are tried in source order:
an angle-delimited tag `<|w|>` (with `w` a non-empty run free of `>` and
`|`), then the bare words `|start| |assistant| |message| |system|
|user|`. -/
def tagMatchAt (s : LC) : Option LC :=
  match s with
  | '<' :: '|' :: rest =>
      if (rest.takeWhile (fun c => !(c = '>' || c = '|'))).isEmpty then none
      else
        match rest.drop (rest.takeWhile (fun c => !(c = '>' || c = '|'))).length with
        | '|' :: '>' :: rest2 => some rest2
        | _ => none
  | _ =>
      if "|start|".toList.isPrefixOf s then some (s.drop 7)
      else if "|assistant|".toList.isPrefixOf s then some (s.drop 11)
      else if "|message|".toList.isPrefixOf s then some (s.drop 9)
      else if "|system|".toList.isPrefixOf s then some (s.drop 8)
      else if "|user|".toList.isPrefixOf s then some (s.drop 6)
      else none

theorem tagMatchAt_lt (s : LC) (r : LC) (h : tagMatchAt s = some r) :
    r.length < s.length := by
  unfold tagMatchAt at h
  split at h
  · rename_i rest
    split at h
    · exact absurd h (by simp)
    · split at h
      · rename_i rest2 heq
        cases h
        have hlen := congrArg List.length heq
        simp only [List.length_drop, List.length_cons] at hlen ⊢
        omega
      · exact absurd h (by simp)
  · rename_i hne
    split at h
    · rename_i hpre
      cases h
      have := (List.isPrefixOf_iff_prefix.mp hpre).length_le
      simp only [show (String.toList "|start|").length = 7 from rfl] at this
      simp only [List.length_drop]
      omega
    · split at h
      · rename_i hpre
        cases h
        have := (List.isPrefixOf_iff_prefix.mp hpre).length_le
        simp only [show (String.toList "|assistant|").length = 11 from rfl] at this
        simp only [List.length_drop]
        omega
      · split at h
        · rename_i hpre
          cases h
          have := (List.isPrefixOf_iff_prefix.mp hpre).length_le
          simp only [show (String.toList "|message|").length = 9 from rfl] at this
          simp only [List.length_drop]
          omega
        · split at h
          · rename_i hpre
            cases h
            have := (List.isPrefixOf_iff_prefix.mp hpre).length_le
            simp only [show (String.toList "|system|").length = 8 from rfl] at this
            simp only [List.length_drop]
            omega
          · split at h
            · rename_i hpre
              cases h
              have := (List.isPrefixOf_iff_prefix.mp hpre).length_le
              simp only [show (String.toList "|user|").length = 6 from rfl] at this
              simp only [List.length_drop]
              omega
            · exact absurd h (by simp)

/-- The substitution walk of `strip_lm_tags`, structural on a fuel bound
(each step consumes at least one character, `tagMatchAt_lt`, so the
input length is enough fuel). -/
def stripFuel : Nat → LC → LC
  | _, [] => []
  | 0, s => s
  | f + 1, c :: cs =>
      match tagMatchAt (c :: cs) with
      | some rest => stripFuel f rest
      | none => c :: stripFuel f cs

/-- `strip_lm_tags`: substitute every non-overlapping leftmost `_TAG_RE`
match by the empty string. -/
def strip_lm_tags (s : LC) : LC := stripFuel s.length s

/-! ## Markup extraction (`extract_tool_markups`, server.py) -/

/-- The function-reference marker `to=functions.`. -/
def markerL : LC := "to=functions.".toList

/-- The character class `[A-Za-z0-9_]` of the tool-name capture group. -/
def isNameChar (c : Char) : Bool :=
  ('A' ≤ c && c ≤ 'Z') || ('a' ≤ c && c ≤ 'z') || ('0' ≤ c && c ≤ '9') || c = '_'

/-- `_normalize_tool_name`: strip whitespace, trailing punctuation and a
glued-on `json` suffix (kept when stripping would empty the name). -/
def _normalize_tool_name (name : LC) : LC :=
  let n := rstripSet ".,;:|>".toList (trimPy name)
  if "json".toList.isSuffixOf (asciiLower n) then
    if (n.take (n.length - 4)).isEmpty then n else n.take (n.length - 4)
  else n

/-- A parsed inline tool call: `{"name": ..., "arguments": ...}`. -/
structure MarkupCall where
  name : LC
  arguments : JObj
deriving DecidableEq, Repr

/-- The two-step JSON decode of the source: `json.loads`, then a repair
pass replacing single quotes by double quotes, defaulting to `{}`. -/
def loadsOrRepair (raw : LC) : JObj :=
  match parseJsonObj raw with
  | some o => o
  | none =>
      match parseJsonObj (raw.map (fun c => if c = '\'' then '"' else c)) with
      | some o => o
      | none => []

/-- Does one of the message-delimiter alternatives
(`<|message|>` first, then `|message|>`) match at the head?  Returns the
rest after it. -/
def delimAt (s : LC) : Option LC :=
  if "<|message|>".toList.isPrefixOf s then some (s.drop 11)
  else if "|message|>".toList.isPrefixOf s then some (s.drop 10)
  else none

theorem delimAt_le (s r : LC) (h : delimAt s = some r) :
    r.length + 10 ≤ s.length := by
  unfold delimAt at h
  split at h
  · rename_i hpre
    cases h
    have := (List.isPrefixOf_iff_prefix.mp hpre).length_le
    simp only [show (String.toList "<|message|>").length = 11 from rfl] at this
    simp only [List.length_drop]
    omega
  · split at h
    · rename_i hpre
      cases h
      have := (List.isPrefixOf_iff_prefix.mp hpre).length_le
      simp only [show (String.toList "|message|>").length = 10 from rfl] at this
      simp only [List.length_drop]
      omega
    · exact absurd h (by simp)

/-- The look-ahead `(?=(?:<\|строка|\|start\||$))` of the strict pattern:
the group's closing brace must be followed by `<|`, `|start|` or the end
of the text. -/
def lookaheadOk (s : LC) : Bool :=
  s.isEmpty || "<|".toList.isPrefixOf s || "|start|".toList.isPrefixOf s

/-- Non-greedy body scan of the group `(\{.*?\})`: take the shortest
extension ending in a `}` whose look-ahead holds (a `}` failing the
look-ahead is consumed as an ordinary character). -/
def jsonGroupBody : LC → Option (LC × LC)
  | [] => none
  | c :: cs =>
      if c = '}' && lookaheadOk cs then some ([c], cs)
      else
        match jsonGroupBody cs with
        | some (g, r) => some (c :: g, r)
        | none => none

theorem jsonGroupBody_lt (s : LC) : ∀ g r,
    jsonGroupBody s = some (g, r) → r.length < s.length := by
  induction s with
  | nil => intro g r h; simp [jsonGroupBody] at h
  | cons c cs ih =>
      intro g r h
      unfold jsonGroupBody at h
      split at h
      · cases h; simp
      · cases hrec : jsonGroupBody cs with
        | none => rw [hrec] at h; exact absurd h (by simp)
        | some p =>
            obtain ⟨g0, r0⟩ := p
            rw [hrec] at h
            simp only [Option.some.injEq, Prod.mk.injEq] at h
            obtain ⟨-, h2⟩ := h
            subst h2
            have := ih g0 r0 hrec
            simp only [List.length_cons]
            omega

/-- Backtracking search for `.*?(?:<\|message\|>|\|message\|>)(\{.*?\})`
with the final look-ahead: try each skip position left to right; at a
delimiter occurrence require an immediate `{` and a balanced-enough
non-greedy group, otherwise extend the skip. -/
def findDelimJson : LC → Option (LC × LC)
  | [] => none
  | c :: cs =>
      match delimAt (c :: cs) with
      | some after =>
          match after with
          | a0 :: as2 =>
              if a0 = '{' then
                match jsonGroupBody as2 with
                | some (g, r) => some ('{' :: g, r)
                | none => findDelimJson cs
              else findDelimJson cs
          | [] => findDelimJson cs
      | none => findDelimJson cs

theorem findDelimJson_lt (s : LC) : ∀ a r,
    findDelimJson s = some (a, r) → r.length < s.length := by
  induction s with
  | nil => intro a r h; simp [findDelimJson] at h
  | cons c cs ih =>
      intro a r h
      unfold findDelimJson at h
      have hstep : findDelimJson cs = some (a, r) → r.length < (c :: cs).length := by
        intro h'
        have := ih a r h'
        simp only [List.length_cons]
        omega
      cases hdel : delimAt (c :: cs) with
      | none => rw [hdel] at h; exact hstep h
      | some after =>
          rw [hdel] at h
          cases after with
          | nil => exact hstep h
          | cons a0 as2 =>
              dsimp only at h
              by_cases ha0 : a0 = '{'
              · subst ha0
                rw [if_pos rfl] at h
                cases hg : jsonGroupBody as2 with
                | none => rw [hg] at h; exact hstep h
                | some p =>
                    obtain ⟨g0, r0⟩ := p
                    rw [hg] at h
                    simp only [Option.some.injEq, Prod.mk.injEq] at h
                    obtain ⟨-, h2⟩ := h
                    subst h2
                    have h1 := jsonGroupBody_lt as2 g0 r0 hg
                    have h2 := delimAt_le (c :: cs) ('{' :: as2) hdel
                    simp only [List.length_cons] at h1 h2 ⊢
                    omega
              · rw [if_neg ha0] at h
                exact hstep h

/-- Attempt the full strict pattern
`to=functions\.([A-Za-z0-9_]+).*?(?:<\|message\|>|\|message\|>)(\{.*?\})(?=…)`
anchored at the head of `s`; returns the two capture groups and the rest
after the match. -/
def matchStrictAt (s : LC) : Option (LC × LC × LC) :=
  if markerL.isPrefixOf s then
    if ((s.drop 13).takeWhile isNameChar).isEmpty then none
    else
      match findDelimJson ((s.drop 13).dropWhile isNameChar) with
      | some (arg, rest) => some ((s.drop 13).takeWhile isNameChar, arg, rest)
      | none => none
  else none

theorem matchStrictAt_lt (s : LC) (nm arg rest : LC)
    (h : matchStrictAt s = some (nm, arg, rest)) : rest.length < s.length := by
  unfold matchStrictAt at h
  split at h
  · rename_i hpre
    split at h
    · exact absurd h (by simp)
    · cases hf : findDelimJson ((s.drop 13).dropWhile isNameChar) with
      | none => rw [hf] at h; exact absurd h (by simp)
      | some p =>
        obtain ⟨a0, r0⟩ := p
        rw [hf] at h
        simp only [Option.some.injEq, Prod.mk.injEq] at h
        obtain ⟨-, -, h2⟩ := h
        subst h2
        have h1 := findDelimJson_lt ((s.drop 13).dropWhile isNameChar) a0 r0 hf
        have h2 : ((s.drop 13).dropWhile isNameChar).length ≤ (s.drop 13).length :=
          (List.dropWhile_sublist _).length_le
        have h3 := (List.isPrefixOf_iff_prefix.mp hpre).length_le
        simp only [show markerL.length = 13 from rfl] at h3
        simp only [List.length_drop] at h1 h2
        omega
  · exact absurd h (by simp)

/-- `re.finditer` over the strict pattern, structural on a fuel bound:
try each start position left to right, continue after the end of each
match (`matchStrictAt_lt` makes the input length enough fuel, see
`strictScanF_irrel`). -/
def strictScanF : Nat → LC → List (LC × LC)
  | _, [] => []
  | 0, _ => []
  | f + 1, c :: cs =>
      match matchStrictAt (c :: cs) with
      | some (nm, arg, rest) => (nm, arg) :: strictScanF f rest
      | none => strictScanF f cs

/-- The strict-pattern `finditer` with its canonical fuel. -/
def strictScan (s : LC) : List (LC × LC) := strictScanF s.length s

theorem strictScanF_irrel : ∀ f1 f2 s, s.length ≤ f1 → s.length ≤ f2 →
    strictScanF f1 s = strictScanF f2 s := by
  intro f1
  induction f1 with
  | zero =>
      intro f2 s h1 h2
      cases s with
      | nil => cases f2 <;> rfl
      | cons c cs => simp at h1
  | succ f ih =>
      intro f2 s h1 h2
      cases s with
      | nil => cases f2 <;> rfl
      | cons c cs =>
          cases f2 with
          | zero => simp at h2
          | succ g =>
              unfold strictScanF
              cases hm : matchStrictAt (c :: cs) with
              | none =>
                  dsimp only
                  simp only [List.length_cons] at h1 h2
                  exact ih g cs (by omega) (by omega)
              | some t =>
                  obtain ⟨nm, arg, rest⟩ := t
                  dsimp only
                  have := matchStrictAt_lt (c :: cs) nm arg rest hm
                  simp only [List.length_cons] at this h1 h2
                  rw [ih g rest (by omega) (by omega)]

/-- Step equation of `strictScan` at a successful match. -/
theorem strictScan_cons_match (c : Char) (cs nm arg rest : LC)
    (hm : matchStrictAt (c :: cs) = some (nm, arg, rest)) :
    strictScan (c :: cs) = (nm, arg) :: strictScan rest := by
  have hlt := matchStrictAt_lt (c :: cs) nm arg rest hm
  simp only [List.length_cons] at hlt
  show strictScanF (c :: cs).length (c :: cs) = (nm, arg) :: strictScanF rest.length rest
  rw [show (c :: cs).length = cs.length + 1 from rfl]
  rw [show strictScanF (cs.length + 1) (c :: cs)
      = (match matchStrictAt (c :: cs) with
         | some (nm, arg, rest) => (nm, arg) :: strictScanF cs.length rest
         | none => strictScanF cs.length cs) from rfl]
  rw [hm]
  dsimp only
  rw [strictScanF_irrel cs.length rest.length rest (by omega) (le_refl _)]

/-- Step equation of `strictScan` at a failed match. -/
theorem strictScan_cons_none (c : Char) (cs : LC)
    (hm : matchStrictAt (c :: cs) = none) :
    strictScan (c :: cs) = strictScan cs := by
  show strictScanF (c :: cs).length (c :: cs) = strictScanF cs.length cs
  rw [show (c :: cs).length = cs.length + 1 from rfl]
  rw [show strictScanF (cs.length + 1) (c :: cs)
      = (match matchStrictAt (c :: cs) with
         | some (nm, arg, rest) => (nm, arg) :: strictScanF cs.length rest
         | none => strictScanF cs.length cs) from rfl]
  rw [hm]

/-- The strict-form matches of `extract_tool_markups`, with the
normalization and two-step decode applied (`(m.group(2) or "{}").strip()`
never sees an empty group, so the strip is the only effect kept). -/
def strictCalls (s : LC) : List MarkupCall :=
  (strictScan s).map (fun p => ⟨_normalize_tool_name p.1, loadsOrRepair (trimPy p.2)⟩)

/-- `re.search` for `to=functions\.([A-Za-z0-9_]+)` from the head: find
the leftmost marker occurrence followed by at least one name character,
returning the (greedy) name and the rest after it (`m.end()`). -/
def findMarkerName : LC → Option (LC × LC)
  | [] => none
  | c :: cs =>
      if markerL.isPrefixOf (c :: cs) then
        if (((c :: cs).drop 13).takeWhile isNameChar).isEmpty then findMarkerName cs
        else some ((((c :: cs).drop 13).takeWhile isNameChar),
          ((c :: cs).drop 13).dropWhile isNameChar)
      else findMarkerName cs

theorem findMarkerName_lt (s : LC) : ∀ n a,
    findMarkerName s = some (n, a) → a.length < s.length := by
  induction s with
  | nil => intro n a h; simp [findMarkerName] at h
  | cons c cs ih =>
      intro n a h
      unfold findMarkerName at h
      have hstep : findMarkerName cs = some (n, a) → a.length < (c :: cs).length := by
        intro h'
        have := ih n a h'
        simp only [List.length_cons]
        omega
      split at h
      · rename_i hpre
        split at h
        · exact hstep h
        · simp only [Option.some.injEq, Prod.mk.injEq] at h
          obtain ⟨-, h2⟩ := h
          subst h2
          have h1 : (((c :: cs).drop 13).dropWhile isNameChar).length
              ≤ ((c :: cs).drop 13).length := (List.dropWhile_sublist _).length_le
          have h3 := (List.isPrefixOf_iff_prefix.mp hpre).length_le
          simp only [show markerL.length = 13 from rfl] at h3
          simp only [List.length_drop, List.length_cons] at h1 h3 ⊢
          omega
      · exact hstep h

/-- `text_s.find('{', m.end())` as a suffix: the suffix starting at the
next `{`, if any. -/
def findBrace : LC → Option LC
  | [] => none
  | c :: cs => if c = '{' then some (c :: cs) else findBrace cs

theorem findBrace_le (s : LC) : ∀ b, findBrace s = some b → b.length ≤ s.length := by
  induction s with
  | nil => intro b h; simp [findBrace] at h
  | cons c cs ih =>
      intro b h
      unfold findBrace at h
      split at h
      · cases h; simp
      · have := ih b h
        simp only [List.length_cons]
        omega

/-- Depth update of the balanced-brace scan (braces count only outside
string literals). -/
def balDepth (ch : Char) (depth : Int) (in_str : Bool) : Int :=
  if in_str then depth
  else if ch = '{' then depth + 1
  else if ch = '}' then depth - 1
  else depth

/-- String-literal state update of the balanced-brace scan. -/
def balInStr (ch : Char) (in_str esc : Bool) : Bool :=
  if in_str then
    if esc then true
    else if ch = '\\' then true
    else if ch = '"' then false
    else true
  else ch = '"'

/-- Escape state update of the balanced-brace scan. -/
def balEsc (ch : Char) (in_str esc : Bool) : Bool :=
  in_str && !esc && ch = '\\'

/-- The balanced-brace scan of the relaxed form (源 lines 158-179): walk
characters keeping depth / string / escape state; stop after the `}`
that returns the depth to zero, returning the consumed object text and
the rest. -/
def balGo : LC → Int → Bool → Bool → Option (LC × LC)
  | [], _, _, _ => none
  | ch :: cs, depth, in_str, esc =>
      if !in_str && ch = '}' && depth - 1 = 0 then some ([ch], cs)
      else
        match balGo cs (balDepth ch depth in_str) (balInStr ch in_str esc)
            (balEsc ch in_str esc) with
        | some (g, r) => some (ch :: g, r)
        | none => none

theorem balGo_lt (s : LC) : ∀ d i e g r,
    balGo s d i e = some (g, r) → r.length < s.length := by
  induction s with
  | nil => intro d i e g r h; simp [balGo] at h
  | cons ch cs ih =>
      intro d i e g r h
      unfold balGo at h
      split at h
      · cases h; simp
      · cases hrec : balGo cs (balDepth ch d i) (balInStr ch i e) (balEsc ch i e) with
        | none => rw [hrec] at h; exact absurd h (by simp)
        | some p =>
            obtain ⟨g0, r0⟩ := p
            rw [hrec] at h
            simp only [Option.some.injEq, Prod.mk.injEq] at h
            obtain ⟨-, h2⟩ := h
            subst h2
            have := ih _ _ _ g0 r0 hrec
            simp only [List.length_cons]
            omega

/-- The relaxed-form scan (source lines 143-192): repeatedly find the
next marker+name; find the next `{` after it; balanced-scan the object;
on either failure resume just after the name (`i = m.end()`), on success
resume just after the object (`i = jend`). -/
def relaxedScanF : Nat → LC → List MarkupCall
  | 0, _ => []
  | f + 1, s =>
      match findMarkerName s with
      | none => []
      | some (name, afterName) =>
          match findBrace afterName with
          | none => relaxedScanF f afterName
          | some bs =>
              match balGo bs 0 false false with
              | none => relaxedScanF f afterName
              | some (obj, rest) =>
                  ⟨_normalize_tool_name name, loadsOrRepair obj⟩ :: relaxedScanF f rest

/-- The relaxed scan with its canonical fuel (each resume point is
strictly further along, so the input length is enough fuel). -/
def relaxedScan (s : LC) : List MarkupCall := relaxedScanF (s.length + 1) s

/-- `extract_tool_markups` (server.py): early-out unless the marker is
present; strict-form matches win, otherwise the relaxed scan runs. -/
def extract_tool_markups (text : Option Content) : List MarkupCall :=
  if (as_text text).isEmpty || !(hasSub markerL (as_text text)) then []
  else
    if !(strictCalls (as_text text)).isEmpty then strictCalls (as_text text)
    else relaxedScan (as_text text)

/-! ## Gating policy (`should_allow_tools`) -/

/-- The fixed explicit-intent phrases of `should_allow_tools`. -/
def explicit_triggers : List LC :=
  ["search the web".toList, "web search".toList, "browse the web".toList,
   "search online".toList, "search on the web".toList, "use web_search".toList]

/-- `should_allow_tools`: true iff the lower-cased message contains an
explicit trigger phrase or a URL scheme marker. -/
def should_allow_tools (user_msg : LC) : Bool :=
  if explicit_triggers.any (fun t => hasSub t (asciiLower user_msg)) then true
  else if hasSub "http://".toList (asciiLower user_msg)
      || hasSub "https://".toList (asciiLower user_msg) then true
  else false

/-! ## Tool dispatcher (`do_web_search`, `do_fetch_url`) -/

/-- A raw DuckDuckGo hit (`h.get` keys used by the source). -/
structure Hit where
  title : Option LC := none
  href : Option LC := none
  body : Option LC := none
deriving DecidableEq, Repr

/-- One entry of the list built by `do_web_search`. -/
structure SearchResult where
  title : Option LC
  href : Option LC
  snippet : LC
deriving DecidableEq, Repr

/-- The dict returned by `do_fetch_url`. -/
structure FetchResult where
  url : JVal
  text : LC
  truncated_to : Int
deriving DecidableEq, Repr

/-- The search provider oracle: `DDGS().text(q, max_results=k)` (the
query is passed through unvalidated, hence `JVal`); an exception is an
`Except.error`. -/
abbrev SearchP := JVal → Int → Except LC (List Hit)

/-- The fetch provider oracle: `requests.get` + HTML text extraction,
producing the full visible text before truncation. -/
abbrev FetchP := JVal → Except LC LC

/-- The call-site bound `min(5, ·)` applied to a requested result count
(server.py line 281 / 310). -/
def clampK (n : Int) : Int := min 5 n

/-- Python `min(5, v)` on a JSON value: comparison with a non-int raises
`TypeError`. -/
def pyMin5 : JVal → Except LC Int
  | .num n => .ok (clampK n)
  | .str _ =>
      .error "TypeError: unsupported comparison between int and str".toList
  | .null =>
      .error "TypeError: unsupported comparison between int and NoneType".toList

/-- Digit-run value. -/
def digitVal (ds : LC) : Nat := ds.foldl (fun a c => a * 10 + (c.toNat - 48)) 0

/-- Python `int(str)`: optional sign, digits, surrounding whitespace. -/
def parseIntLiteral (s : LC) : Option Int :=
  match trimPy s with
  | '-' :: ds => if !ds.isEmpty && ds.all isDigitC then some (-(digitVal ds : Int)) else none
  | '+' :: ds => if !ds.isEmpty && ds.all isDigitC then some ((digitVal ds : Int)) else none
  | ds => if !ds.isEmpty && ds.all isDigitC then some ((digitVal ds : Int)) else none

/-- Python `int(v)` on a JSON value. -/
def toIntPy : JVal → Except LC Int
  | .num n => .ok n
  | .str s =>
      match parseIntLiteral s with
      | some n => .ok n
      | none => .error "ValueError: invalid literal for int() with base 10".toList
  | .null => .error "TypeError: int() argument must not be NoneType".toList

/-- `do_web_search` (server.py, snippet cap 140): list the provider hits,
keep `hits[:k]`, truncate each body to 140 characters with an ellipsis
marker.  A provider exception propagates (there is no handler). -/
def do_web_search (S : SearchP) (q : JVal) (k : Int) : Except LC (List SearchResult) := do
  let hits ← S q k
  pure ((pyTake k hits).map (fun h =>
    { title := h.title, href := h.href,
      snippet :=
        if 140 < (h.body.getD []).length then (h.body.getD []).take 140 ++ "...".toList
        else h.body.getD [] }))

/-- `do_fetch_url`: fetch, extract visible text, truncate to the
requested budget.  A transport/parse exception propagates. -/
def do_fetch_url (F : FetchP) (url : JVal) (limit : Int) : Except LC FetchResult := do
  let text ← F url
  pure { url := url, text := pyTake limit text, truncated_to := limit }

/-! ## `json.dumps` of tool results -/

/-- `json.dumps` of a dict from rendered key/value items. -/
def dumpsObj (items : List LC) : LC := '{' :: joinComma items ++ ['}']

/-- `json.dumps` of a list from rendered items. -/
def dumpsArr (items : List LC) : LC := '[' :: joinComma items ++ [']']

/-- One `"key": value` item. -/
def dumpsKV (k : LC) (v : LC) : LC := dumpsStr k ++ ':' :: ' ' :: v

/-- `json.dumps` of a `SearchResult` dict (insertion order title, href,
snippet). -/
def dumpsSearchResult (r : SearchResult) : LC :=
  dumpsObj [dumpsKV "title".toList (dumpsOptStr r.title),
    dumpsKV "href".toList (dumpsOptStr r.href),
    dumpsKV "snippet".toList (dumpsStr r.snippet)]

/-- `json.dumps` of the `do_web_search` result list. -/
def dumpsSearchResults (l : List SearchResult) : LC :=
  dumpsArr (l.map dumpsSearchResult)

/-- `json.dumps` of a `FetchResult` dict. -/
def dumpsFetchResult (f : FetchResult) : LC :=
  dumpsObj [dumpsKV "url".toList (dumpsJVal f.url),
    dumpsKV "text".toList (dumpsStr f.text),
    dumpsKV "truncated_to".toList (intDigits f.truncated_to)]

/-- `json.dumps({"error": "unknown tool"})`. -/
def errorObjDumps : LC :=
  dumpsObj [dumpsKV "error".toList (dumpsStr "unknown tool".toList)]

/-! ## Fallback summarizer (`render_fallback_summary`) -/

/-- `(x or "Untitled")` for an optional title. -/
def orUntitled : Option LC → LC
  | some s => if s.isEmpty then "Untitled".toList else s
  | none => "Untitled".toList

/-- `(f.get("url") or "")` rendered through the f-string. -/
def jvalOrEmptyDisplay : JVal → LC
  | .str s => s
  | .null => []
  | .num n => if n = 0 then [] else intDigits n

/-- `"\n".join`. -/
def joinNl : List LC → LC
  | [] => []
  | [x] => x
  | x :: rest => x ++ '\n' :: joinNl rest

/-- `render_fallback_summary`: deterministic plaintext rendering of the
per-turn accumulator. -/
def render_fallback_summary (web? : Option (List SearchResult))
    (fetched : List FetchResult) : LC :=
  let web := web?.getD []
  let lines1 : List LC :=
    if web.isEmpty then []
    else "Top results:".toList ::
      (web.take 5).map (fun r =>
        let title := trimPy (orUntitled r.title)
        let url := r.href.getD []
        let snippet := trimPy r.snippet
        if snippet.isEmpty then "- ".toList ++ title ++ " — ".toList ++ url
        else "- ".toList ++ title ++ " — ".toList ++ url ++
          '\n' :: ' ' :: ' ' :: snippet)
  let lines2 : List LC :=
    if fetched.isEmpty then []
    else "\nFetched pages:".toList ::
      (fetched.take 3).map (fun f =>
        let url := jvalOrEmptyDisplay f.url
        let text0 := trimPy f.text
        let text := if 220 < text0.length then text0.take 220 ++ "...".toList else text0
        "- ".toList ++ url ++ '\n' :: ' ' :: ' ' :: text)
  if (lines1 ++ lines2).isEmpty then
    "I couldn\x27t generate a summary from tools. Try rephrasing or provide a URL.".toList
  else joinNl (lines1 ++ lines2)

/-! ## Model backend (`chat_once`) and orchestration (`tool_loop`) -/

/-- `LMSTUDIO_BASE` with its default value (environment overrides are
deployment configuration, fixed here). -/
def LMSTUDIO_BASE : LC := "http://127.0.0.1:1234/v1".toList

/-- One backend response: a transport failure (a
`requests.exceptions.RequestException`), or a decoded JSON body with an
optional `error` object (reduced to its message) and a `choices` list
(each entry standing for `choice["message"]`; a choice without a usable
message dict is a falsy `BMsg`). -/
inductive BackendResp where
  | transportError (e : LC)
  | ok (error : Option LC) (choices : List BMsg)
deriving Repr

/-- The backend oracle: the response to the `i`-th completion call of
the turn. -/
abbrev Backend := Nat → BackendResp

/-- The user-readable transport-failure message raised by `chat_once`. -/
def unreachText (e : LC) : LC :=
  "Could not reach LM Studio at ".toList ++ LMSTUDIO_BASE ++
    ". Ensure the LM Studio server is running and a model is loaded. Original error: ".toList
    ++ e

/-- `chat_once`: raise on transport failure (with the user-readable
wrapper) or on an `error` body; otherwise
`(j.get("choices") or [{}])[0].get("message", {})`. -/
def chat_once (resp : BackendResp) : Except LC BMsg :=
  match resp with
  | .transportError e => .error (unreachText e)
  | .ok (some m) _ => .error m
  | .ok none choices =>
      match choices with
      | [] => .ok { truthy := false }
      | c :: _ => .ok c

/-- The `SYSTEM` prompt message of server.py. -/
def SYSTEM_CONTENT : LC :=
  ("You may use tools, but only when the user explicitly asks you to browse, " ++
   "search the web, or fetch a specific URL. If the user just chats, do not use " ++
   "any tools. Prefer web_search first for fresh info, and only call fetch_url " ++
   "after you have a specific article URL; never fetch homepages. When calling " ++
   "tools, you may either: (1) use tool_calls; or (2) emit LM-style inline tags " ++
   "like \x27<|assistant|>\n<|commentary to=functions.web_search|><|message|>\x7b\"q\":\"...\"\x7d\x27. After using tools, " ++
   "answer in plain text with a short set of bullets and clickable links. Do not " ++
   "emit channel tags in your final answer.").toList

/-- The `SYSTEM` message dict. -/
def systemMsg : Msg := { role := "system".toList, content := some (.str SYSTEM_CONTENT) }

/-- A `{"role": "user", "content": s}` message. -/
def mkUserMsg (s : LC) : Msg := { role := "user".toList, content := some (.str s) }

/-- A `{"role": "assistant", "content": s}` message. -/
def assistantMsg (s : LC) : Msg := { role := "assistant".toList, content := some (.str s) }

/-- A `{"role": "system", "content": s}` directive message. -/
def sysMsg (s : LC) : Msg := { role := "system".toList, content := some (.str s) }

/-- An assistant message carrying only `tool_calls`. -/
def assistantToolCallsMsg (tcs : List OTC) : Msg :=
  { role := "assistant".toList, tool_calls := tcs }

/-- A `tool` role message with id, name and serialized content. -/
def toolMsg (id : LC) (nm : LC) (out : LC) : Msg :=
  { role := "tool".toList, content := some (.str out),
    tool_call_id := some id, name := some nm }

/-- A `tool` role message whose `name` may be `None` (structured path). -/
def toolMsgO (id : LC) (nm : Option LC) (out : LC) : Msg :=
  { role := "tool".toList, content := some (.str out),
    tool_call_id := some id, name := nm }

/-- The tools-disabled follow-up directive (server lines 289/318/337). -/
def dirAnswer : LC :=
  "Using the gathered tool outputs, answer in plain text with bullet headlines and links. Do not call tools.".toList

/-- The corrective nudge directive (server line 294). -/
def dirNudge : LC :=
  "If you need tools, emit a valid tool call (tool_calls) or LM-style inline tag with a JSON object. Otherwise, answer directly in plain text.".toList

/-- The final plain-text nudge directive (server line 346). -/
def dirEmpty : LC :=
  "Answer now in plain text with short bullets or a short paragraph. No tags.".toList

/-- The fixed refusal substituted when tools were never allowed but the
final text still carries the marker (server lines 350-354). -/
def refusalText : LC :=
  "I won\x27t browse unless you ask. Say \x27search the web for …\x27 or provide a URL to fetch.".toList

/-- Per-turn orchestration state: the message list under construction,
the number of completion calls made so far (`idx`, also the next oracle
index), the per-turn accumulator, and `rounds`, an instrumentation
counter of tool-dispatch blocks executed (not a Python variable). -/
structure St where
  msgs : List Msg
  idx : Nat
  rounds : Nat
  web : Option (List SearchResult)
  fetched : List FetchResult
deriving Repr

/-- Append one message. -/
def pushMsg (st : St) (m : Msg) : St := { st with msgs := st.msgs ++ [m] }

/-- `msg = chat_once(messages, …)`: consume the next backend response. -/
def stepChat (B : Backend) (st : St) : Except LC (BMsg × St) :=
  (chat_once (B st.idx)).map (fun m => (m, { st with idx := st.idx + 1 }))

/-- Python truthiness of `accum["web"] or accum["fetched"]`. -/
def accumTruthy (st : St) : Bool :=
  (match st.web with
   | some l => !l.isEmpty
   | none => false) || !st.fetched.isEmpty

/-- One markup-call dispatch (the body of the `for i, c in
enumerate(calls)` loop, server lines 280-288): `web_search` and
`fetch_url` run their providers, anything else becomes the
`unknown tool` error object; one `tool` message is appended either way. -/
def runMarkupCall (S : SearchP) (F : FetchP) (c : MarkupCall) (idStr : LC)
    (st : St) : Except LC St :=
  if c.name = "web_search".toList then do
    let k ← pyMin5 (jGet c.arguments "max_results".toList (JVal.num 5))
    let out ← do_web_search S (jGet c.arguments "q".toList (JVal.str [])) k
    pure { pushMsg st (toolMsg idStr c.name (dumpsSearchResults out)) with web := some out }
  else if c.name = "fetch_url".toList then
    match jGet? c.arguments "url".toList with
    | none => Except.error "KeyError: \x27url\x27".toList
    | some url => do
        let mc ← toIntPy (jGet c.arguments "max_chars".toList (JVal.num 6000))
        let out ← do_fetch_url F url mc
        pure { pushMsg st (toolMsg idStr c.name (dumpsFetchResult out)) with
          fetched := st.fetched ++ [out] }
  else
    pure (pushMsg st (toolMsg idStr c.name errorObjDumps))

/-- The whole markup-dispatch loop, with enumerated ids built from the
given prefix (`markup-` or `markup-fb-`). -/
def dispatchMarkup (S : SearchP) (F : FetchP) (pre : LC) :
    List MarkupCall → Nat → St → Except LC St
  | [], _, st => pure st
  | c :: rest, i, st => do
      let st' ← runMarkupCall S F c (pre ++ natDigits i) st
      dispatchMarkup S F pre rest (i + 1) st'

/-- `fn.get("arguments") or "{}"` of one structured call (`""` is falsy
and also becomes `"{}"`). -/
def fargsRaw (tc : OTC) : LC :=
  match tc.fargs with
  | some s => if s.isEmpty then "\x7b\x7d".toList else s
  | none => "\x7b\x7d".toList

/-- One structured (`tool_calls`) dispatch, server lines 301-317. -/
def runStructuredCall (S : SearchP) (F : FetchP) (tc : OTC) (st : St) :
    Except LC St :=
  let args := (parseJsonObj (fargsRaw tc)).getD []
  let idStr := tc.id.getD "tc-0".toList
  if tc.fname = some "web_search".toList then do
    let k ← pyMin5 (jGet args "max_results".toList (JVal.num 5))
    let out ← do_web_search S (jGet args "q".toList (JVal.str [])) k
    pure { pushMsg st (toolMsgO idStr tc.fname (dumpsSearchResults out)) with web := some out }
  else if tc.fname = some "fetch_url".toList then do
    let mc ← toIntPy (jGet args "max_chars".toList (JVal.num 6000))
    let out ← do_fetch_url F (jGet args "url".toList JVal.null) mc
    pure { pushMsg st (toolMsgO idStr tc.fname (dumpsFetchResult out)) with
      fetched := st.fetched ++ [out] }
  else
    pure (pushMsg st (toolMsgO idStr tc.fname errorObjDumps))

/-- The structured-dispatch loop. -/
def dispatchStructured (S : SearchP) (F : FetchP) :
    List OTC → St → Except LC St
  | [], st => pure st
  | tc :: rest, st => do
      let st' ← runStructuredCall S F tc st
      dispatchStructured S F rest st'

/-- `calls = extract_tool_markups(msg.get("content")) if (msg and
allow_tools) else []` (server line 276). -/
def firstCalls (allow : Bool) (msg : BMsg) : List MarkupCall :=
  if msg.truthy && allow then extract_tool_markups msg.content else []

/-- Server lines 275-319: classify the first response.  Inline markup
wins; otherwise an unparseable marker triggers the nudge retry;
otherwise structured `tool_calls` are dispatched; otherwise the message
passes through. -/
def tl_after_first (B : Backend) (S : SearchP) (F : FetchP) (allow : Bool)
    (msg : BMsg) (st : St) : Except LC (BMsg × St) :=
  if !(firstCalls allow msg).isEmpty then do
    let st := pushMsg st (assistantMsg (as_text msg.content))
    let st ← dispatchMarkup S F "markup-".toList (firstCalls allow msg) 0 st
    let st := pushMsg { st with rounds := st.rounds + 1 } (sysMsg dirAnswer)
    stepChat B st
  else if allow && hasSub markerL (as_text msg.content) then do
    let st := pushMsg st (assistantMsg (as_text msg.content))
    let st := pushMsg st (sysMsg dirNudge)
    stepChat B st
  else if allow && !msg.tool_calls.isEmpty then do
    let st := pushMsg st (assistantToolCallsMsg msg.tool_calls)
    let st ← dispatchStructured S F msg.tool_calls st
    let st := pushMsg { st with rounds := st.rounds + 1 } (sysMsg dirAnswer)
    stepChat B st
  else pure (msg, st)

/-- `final = strip_lm_tags(_as_text(msg.get("content"))) if msg else ""`
(server line 321, also line 339/348 for the refreshed message). -/
def finalOfMsg (msg : BMsg) : LC :=
  if msg.truthy then strip_lm_tags (as_text msg.content) else []

/-- Server lines 321-339: strip the candidate final text; if it still
carries the marker and markup can be extracted from it, run one more
dispatch round and one tools-disabled completion. -/
def tl_fallback (B : Backend) (S : SearchP) (F : FetchP) (allow : Bool)
    (msg : BMsg) (st : St) : Except LC (LC × St) :=
  if allow && hasSub markerL (finalOfMsg msg) then
    if !(extract_tool_markups (some (.str (finalOfMsg msg)))).isEmpty then do
      let st := pushMsg st (assistantMsg (finalOfMsg msg))
      let st ← dispatchMarkup S F "markup-fb-".toList
        (extract_tool_markups (some (.str (finalOfMsg msg)))) 0 st
      let st := pushMsg { st with rounds := st.rounds + 1 } (sysMsg dirAnswer)
      let (msg2, st) ← stepChat B st
      pure ((if msg2.truthy then strip_lm_tags (as_text msg2.content)
        else finalOfMsg msg), st)
    else pure (finalOfMsg msg, st)
  else pure (finalOfMsg msg, st)

/-- Server line 341: substitute the fallback summary for an empty answer
when results were accumulated. -/
def emptyFinal1 (finalIn : LC) (st : St) : LC :=
  if (trimPy finalIn).isEmpty && accumTruthy st then
    render_fallback_summary st.web st.fetched
  else finalIn

/-- Server lines 341-348: fallback summary, else one more plain-text
nudge for a still-empty answer. -/
def tl_empty (B : Backend) (finalIn : LC) (st : St) : Except LC (LC × St) :=
  if (trimPy (emptyFinal1 finalIn st)).isEmpty then do
    let st := pushMsg st (assistantMsg [])
    let st := pushMsg st (sysMsg dirEmpty)
    let (msg, st) ← stepChat B st
    pure ((if msg.truthy then strip_lm_tags (as_text msg.content)
      else emptyFinal1 finalIn st), st)
  else pure (emptyFinal1 finalIn st, st)

/-- Server lines 350-354: the refusal substitution when tools were never
allowed but the marker survived. -/
def tl_refusal (allow : Bool) (final : LC) : LC :=
  if !allow && hasSub markerL final then refusalText else final

/-- The instrumented result of one `tool_loop` run: the returned message
list and final text, plus the number of completion calls made and of
tool-dispatch rounds executed. -/
structure TLOut where
  msgs : List Msg
  final : LC
  calls : Nat
  rounds : Nat
deriving DecidableEq, Repr

/-- `tool_loop` (server lines 266-356), instrumented: thread the state
through the four phases and append the final assistant message. -/
def tool_loopAux (B : Backend) (S : SearchP) (F : FetchP) (user_msg : LC)
    (history : List Msg) : Except LC TLOut := do
  let base := if history.isEmpty then [systemMsg] else history
  let st0 : St := ⟨base ++ [mkUserMsg user_msg], 0, 0, none, []⟩
  let allow := should_allow_tools user_msg
  let (msg, st1) ← stepChat B st0
  let (msg2, st2) ← tl_after_first B S F allow msg st1
  let (final, st3) ← tl_fallback B S F allow msg2 st2
  let (final2, st4) ← tl_empty B final st3
  let final3 := tl_refusal allow final2
  pure ⟨st4.msgs ++ [assistantMsg final3], final3, st4.idx, st4.rounds⟩

/-- `tool_loop`'s Python-visible result `(messages, final)`. -/
def tool_loop (B : Backend) (S : SearchP) (F : FetchP) (user_msg : LC)
    (history : List Msg) : Except LC (List Msg × LC) :=
  (tool_loopAux B S F user_msg history).map (fun o => (o.msgs, o.final))

/-! ## The `/chat` front-end handler -/

/-- `SESSIONS.get(thread, [])`. -/
def sessionsGet (ss : List (LC × List Msg)) (t : LC) : List Msg :=
  match ss.find? (fun p => p.1 = t) with
  | some p => p.2
  | none => []

/-- `SESSIONS[thread] = history`. -/
def sessionsSet (ss : List (LC × List Msg)) (t : LC) (h : List Msg) :
    List (LC × List Msg) :=
  if ss.any (fun p => p.1 = t) then ss.map (fun p => if p.1 = t then (t, h) else p)
  else ss ++ [(t, h)]

/-- The `/chat` handler (server lines 364-379) for a given thread id:
empty messages are bounced; a turn that completes updates the session
store; any exception is caught and turned into the error-styled answer,
leaving the store untouched. -/
def chat (B : Backend) (S : SearchP) (F : FetchP) (ss : List (LC × List Msg))
    (thread : LC) (user_msg : LC) : List (LC × List Msg) × LC :=
  if user_msg.isEmpty then (ss, "Please enter a message.".toList)
  else
    match tool_loop B S F user_msg (sessionsGet ss thread) with
    | .ok (hist, ans) => (sessionsSet ss thread hist, ans)
    | .error e => (ss, "Sorry, I hit an error: ".toList ++ e)

/-! ## History pruning (`prune_history`, lm_browse.py) -/

/-- `json.dumps` of a content-block list, for length measurement in
`prune_history` (a `textB` block is a `{"text": …}` dict; an `otherB`
element's serialization is carried abstractly by its rendering). -/
def dumpsBlocks (bs : List Block) : LC :=
  dumpsArr (bs.map (fun b => match b with
    | .textB t => dumpsObj [dumpsKV "text".toList (dumpsStr t)]
    | .otherB r => r))

/-- `len(chunk)` for one message: `m.get("content") or ""`, serializing
non-string content with `json.dumps` first. -/
def contentLen (m : Msg) : Nat :=
  match m.content with
  | none => 0
  | some (.str s) => s.length
  | some (.blocks bs) => (dumpsBlocks bs).length

/-- The accumulation loop of `prune_history`, over the reversed
non-system messages: keep appending (newest first) and stop once the
running total reaches the budget — after including the crossing
message. -/
def pruneGo (max_chars : Nat) : List Msg → Nat → List Msg
  | [], _ => []
  | m :: rest, total =>
      m :: (if max_chars ≤ total + contentLen m then []
        else pruneGo max_chars rest (total + contentLen m))

/-- `m["role"] == "system"`. -/
def isSysB (m : Msg) : Bool := m.role = "system".toList

/-- `m["role"] != "system"`. -/
def nonSysB (m : Msg) : Bool := ¬ m.role = "system".toList

/-- `prune_history`: at most one system message (the first), then the
kept suffix of the non-system messages, restored to chronological
order. -/
def prune_history (messages : List Msg) (max_chars : Nat := 8000) : List Msg :=
  if messages.isEmpty then messages
  else
    ((messages.filter isSysB).take 1) ++
      (pruneGo max_chars ((messages.filter nonSysB).reverse) 0).reverse

/-- Decidable equality for `Except` results (not derived in core). -/
instance exceptDecEq {e a : Type} [DecidableEq e] [DecidableEq a] :
    DecidableEq (Except e a)
  | .ok x, .ok y =>
      if h : x = y then isTrue (by rw [h])
      else isFalse (by intro hh; cases hh; exact h rfl)
  | .error x, .error y =>
      if h : x = y then isTrue (by rw [h])
      else isFalse (by intro hh; cases hh; exact h rfl)
  | .ok _, .error _ => isFalse (by intro hh; cases hh)
  | .error _, .ok _ => isFalse (by intro hh; cases hh)

/-! ## Concrete oracles used by the evaluation theorems -/

/-- A backend response with one choice. -/
def okResp (m : BMsg) : BackendResp := .ok none [m]

/-- A truthy message dict with plain-string content. -/
def respText (s : LC) : BMsg := { truthy := true, content := some (.str s) }

/-- A search provider returning no hits. -/
def emptySearch : SearchP := fun _ _ => .ok []

/-- A fetch provider returning empty page text. -/
def emptyFetch : FetchP := fun _ => .ok []

/-- A user message that passes the gating policy. -/
def uSearch : LC := "search the web for x".toList

/-- A backend that emits a relaxed-form `web_search` call, then another
one, then empty text forever. -/
def c1Backend : Backend := fun n =>
  if n = 0 then okResp (respText "to=functions.web_search \x7b\"q\": \"x\"\x7d".toList)
  else if n = 1 then okResp (respText "again to=functions.web_search \x7b\"q\": \"y\"\x7d".toList)
  else okResp (respText [])

/-- A backend that emits the marker without any JSON object, twice. -/
def c2Backend : Backend := fun n =>
  if n = 0 then okResp (respText "I will to=functions.web_search now".toList)
  else okResp (respText "still cannot to=functions.web_search now".toList)

/-- A backend that calls an unknown tool, then answers. -/
def c3Backend : Backend := fun n =>
  if n = 0 then okResp (respText "to=functions.bogus \x7b\"q\": \"x\"\x7d".toList)
  else okResp (respText "done".toList)

/-- A backend that requests `max_results = 0`, then answers. -/
def c4Backend : Backend := fun n =>
  if n = 0 then okResp (respText "to=functions.web_search \x7b\"q\": \"x\", \"max_results\": 0\x7d".toList)
  else okResp (respText "fine".toList)

/-- A search provider raising an error. -/
def boomSearch : SearchP := fun _ _ => .error "boom".toList

/-- A search provider that reports whether it was invoked with a count
below 1. -/
def detectSearch : SearchP := fun _ k =>
  if k < 1 then .error "k below 1".toList else .ok []

/-- A backend whose response decodes but has no `choices`. -/
def c9Backend : Backend := fun _ => .ok none []

/-! ## C6 — strict-form extraction -/

/-- One well-formed strict-form tool-call tag: a function name and flat
string-valued JSON arguments. -/
structure StrictTag where
  name : LC
  args : List (LC × LC)
deriving DecidableEq, Repr

/-- Characters allowed inside the canonical JSON strings: printable and
free of `"`, `\`, `{`, `}` (so decoding is escape-free and the group
scan sees no stray brace). -/
def safeChar (c : Char) : Bool :=
  32 ≤ c.toNat && !(c = '"' || c = '\\' || c = '{' || c = '}')

/-- Well-formedness of one tag: non-empty `[A-Za-z0-9_]` name that
normalization leaves alone, and safe argument strings. -/
def wellFormedTag (t : StrictTag) : Prop :=
  t.name ≠ [] ∧ t.name.all isNameChar = true
  ∧ "json".toList.isSuffixOf (asciiLower t.name) = false
  ∧ ∀ p ∈ t.args, p.1.all safeChar = true ∧ p.2.all safeChar = true

instance (t : StrictTag) : Decidable (wellFormedTag t) := by
  unfold wellFormedTag
  infer_instance

/-- `"key":"value"` (canonical JSON member, no whitespace). -/
def renderPairC (p : LC × LC) : LC :=
  '"' :: (p.1 ++ '"' :: ':' :: '"' :: (p.2 ++ ['"']))

/-- `,"k":"v","k":"v"…` — the members after the first. -/
def tailRender : List (LC × LC) → LC
  | [] => []
  | p :: rest => ',' :: (renderPairC p ++ tailRender rest)

/-- All members. -/
def renderMembersC : List (LC × LC) → LC
  | [] => []
  | p :: rest => renderPairC p ++ tailRender rest

/-- The canonical JSON object of a tag's arguments. -/
def renderObjC (ps : List (LC × LC)) : LC :=
  '{' :: (renderMembersC ps ++ ['}'])

/-- One canonical strict-form tag as the model emits it. -/
def renderStrictTag (t : StrictTag) : LC :=
  "<|commentary ".toList ++ (markerL ++ (t.name ++ ("|><|message|>".toList
    ++ renderObjC t.args)))

/-- A raw model output consisting of N sequential strict-form tags. -/
def renderTags : List StrictTag → LC
  | [] => []
  | t :: rest => renderStrictTag t ++ renderTags rest

theorem dropWhile_eq_self_of (p : Char → Bool) (l : LC)
    (h : ∀ c ∈ l, p c = false) : l.dropWhile p = l := by
  cases l with
  | nil => rfl
  | cons c cs => simp [List.dropWhile_cons, h c (List.mem_cons_self c cs)]

theorem safe_not_quote {c : Char} (h : safeChar c = true) : ¬ c = '"' := by
  simp only [safeChar, Bool.and_eq_true, Bool.not_eq_true', Bool.or_eq_false_iff,
    decide_eq_false_iff_not] at h
  tauto

theorem safe_not_backslash {c : Char} (h : safeChar c = true) : ¬ c = '\\' := by
  simp only [safeChar, Bool.and_eq_true, Bool.not_eq_true', Bool.or_eq_false_iff,
    decide_eq_false_iff_not] at h
  tauto

theorem safe_not_lbrace {c : Char} (h : safeChar c = true) : ¬ c = '{' := by
  simp only [safeChar, Bool.and_eq_true, Bool.not_eq_true', Bool.or_eq_false_iff,
    decide_eq_false_iff_not] at h
  tauto

theorem safe_not_rbrace {c : Char} (h : safeChar c = true) : ¬ c = '}' := by
  simp only [safeChar, Bool.and_eq_true, Bool.not_eq_true', Bool.or_eq_false_iff,
    decide_eq_false_iff_not] at h
  tauto

theorem safe_not_ctl {c : Char} (h : safeChar c = true) : ¬ c.toNat < 32 := by
  simp only [safeChar, Bool.and_eq_true, decide_eq_true_eq] at h
  omega

/-- Decoding a safe string body: the closing quote is found, nothing is
unescaped. -/
theorem parseStringBody_safe (s : LC) (r : LC) (hs : s.all safeChar = true) :
    parseStringBody (s ++ '"' :: r) = some (s, r) := by
  induction s with
  | nil => rw [List.nil_append, parseStringBody.eq_def]; simp
  | cons c cs ih =>
      have hc : safeChar c = true := by
        simp only [List.all_cons, Bool.and_eq_true] at hs
        exact hs.1
      have hcs : cs.all safeChar = true := by
        simp only [List.all_cons, Bool.and_eq_true] at hs
        exact hs.2
      rw [List.cons_append, parseStringBody.eq_def]
      simp only [if_neg (safe_not_quote hc), if_neg (safe_not_backslash hc),
        if_neg (safe_not_ctl hc)]
      rw [ih hcs]

theorem skipWs_cons (c : Char) (r : LC) (h : isJWs c = false) :
    skipWs (c :: r) = c :: r := by
  simp [skipWs, List.dropWhile_cons, h]

/-- Parsing one canonical member: key then `:` then string value. -/
theorem parsePair_render (k v : LC) (rest : LC)
    (h1 : k.all safeChar = true) (h2 : v.all safeChar = true) :
    parsePair ('"' :: (k ++ '"' :: (':' :: ('"' :: (v ++ '"' :: rest)))))
      = some ((k, JVal.str v), rest) := by
  unfold parsePair
  rw [skipWs_cons _ _ (by decide)]
  dsimp only
  rw [if_pos rfl, parseStringBody_safe k _ h1]
  dsimp only
  rw [skipWs_cons _ _ (by decide)]
  dsimp only
  rw [if_pos rfl, skipWs_cons _ _ (by decide)]
  unfold parseValue
  dsimp only
  rw [if_pos rfl, parseStringBody_safe v _ h2]
  rfl

theorem renderPairC_length (k v : LC) :
    (renderPairC (k, v)).length = k.length + v.length + 5 := by
  simp [renderPairC]
  omega

/-- The members loop consumes a canonical tail render and a closing brace,
returning the accumulated members followed by the decoded tail. -/
theorem parseMembersLoopF_render :
    ∀ (rest : List (LC × LC)) (acc : JObj) (f : Nat),
    (tailRender rest).length + 1 < f →
    (∀ p ∈ rest, p.1.all safeChar = true ∧ p.2.all safeChar = true) →
    parseMembersLoopF f (tailRender rest ++ ['}']) acc
      = some (acc.reverse ++ rest.map (fun p => (p.1, JVal.str p.2)), []) := by
  intro rest
  induction rest with
  | nil =>
      intro acc f hf hs
      cases f with
      | zero => omega
      | succ g =>
          unfold parseMembersLoopF
          simp only [tailRender, List.nil_append]
          rw [skipWs_cons _ _ (by decide)]
          dsimp only
          rw [if_pos rfl]
          simp
  | cons p rest' ih =>
      intro acc f hf hs
      obtain ⟨k, v⟩ := p
      cases f with
      | zero => simp at hf
      | succ g =>
          have hk : k.all safeChar = true :=
            (hs (k, v) (List.mem_cons_self _ _)).1
          have hv : v.all safeChar = true :=
            (hs (k, v) (List.mem_cons_self _ _)).2
          unfold parseMembersLoopF
          have e : tailRender ((k, v) :: rest') ++ ['}']
              = ',' :: ('"' :: (k ++ '"' :: (':' :: ('"' :: (v ++ '"' ::
                  (tailRender rest' ++ ['}'])))))) := by
            simp [tailRender, renderPairC]
          rw [e, skipWs_cons _ _ (by decide)]
          dsimp only
          rw [if_neg (by decide), if_pos rfl,
            parsePair_render k v _ hk hv]
          dsimp only
          have hlen : (tailRender rest').length + 1 < g := by
            have h1 : (tailRender ((k, v) :: rest')).length
                = 1 + (renderPairC (k, v)).length + (tailRender rest').length := by
              simp [tailRender]
              omega
            have h2 := renderPairC_length k v
            simp only [h1, h2] at hf
            omega
          rw [ih ((k, JVal.str v) :: acc) g hlen
            (fun q hq => hs q (List.mem_cons_of_mem _ hq))]
          simp
  
/-- `json.loads` decodes the canonical render of flat string-valued
arguments. -/
theorem parseJsonObj_render (ps : List (LC × LC))
    (hs : ∀ p ∈ ps, p.1.all safeChar = true ∧ p.2.all safeChar = true) :
    parseJsonObj (renderObjC ps)
      = some (ps.map (fun p => (p.1, JVal.str p.2))) := by
  unfold parseJsonObj
  rw [show renderObjC ps = '{' :: (renderMembersC ps ++ ['}']) from rfl,
    skipWs_cons _ _ (by decide)]
  dsimp only
  rw [if_pos rfl]
  cases ps with
  | nil =>
      simp only [renderMembersC, List.nil_append]
      rw [skipWs_cons _ _ (by decide)]
      dsimp only
      rw [if_pos rfl]
      simp [skipWs]
  | cons p rest =>
      obtain ⟨k, v⟩ := p
      have hk : k.all safeChar = true :=
        (hs (k, v) (List.mem_cons_self _ _)).1
      have hv : v.all safeChar = true :=
        (hs (k, v) (List.mem_cons_self _ _)).2
      have e : renderMembersC ((k, v) :: rest) ++ ['}']
          = '"' :: (k ++ '"' :: (':' :: ('"' :: (v ++ '"' ::
              (tailRender rest ++ ['}']))))) := by
        simp [renderMembersC, renderPairC]
      rw [e, skipWs_cons _ _ (by decide)]
      dsimp only
      rw [if_neg (by decide), parsePair_render k v _ hk hv]
      dsimp only
      unfold parseMembersLoop
      rw [parseMembersLoopF_render rest [(k, JVal.str v)] _
        (by simp) (fun q hq => hs q (List.mem_cons_of_mem _ hq))]
      dsimp only
      rw [if_pos (by simp [skipWs])]
      simp

theorem nameChar_not_ws {c : Char} (h : isNameChar c = true) :
    isWsChar c = false := by
  by_contra hc
  simp only [Bool.not_eq_false] at hc
  simp only [isWsChar, Bool.or_eq_true, decide_eq_true_eq] at hc
  rcases hc with ((((h1 | h1) | h1) | h1) | h1) | h1 <;> subst h1 <;>
    exact absurd h (by decide)

theorem nameChar_not_punct {c : Char} (h : isNameChar c = true) :
    (".,;:|>".toList.contains c) = false := by
  by_contra hc
  simp only [Bool.not_eq_false] at hc
  have hm : c ∈ ".,;:|>".toList := List.mem_of_elem_eq_true hc
  simp only [show ".,;:|>".toList = ['.', ',', ';', ':', '|', '>'] from rfl,
    List.mem_cons, List.not_mem_nil, or_false] at hm
  rcases hm with h1 | h1 | h1 | h1 | h1 | h1 <;> subst h1 <;>
    exact absurd h (by decide)

theorem trimPy_all_not_ws (s : LC) (h : ∀ c ∈ s, isWsChar c = false) :
    trimPy s = s := by
  unfold trimPy
  rw [dropWhile_eq_self_of _ _ h,
    dropWhile_eq_self_of _ _ (fun c hc => h c (List.mem_reverse.mp hc)),
    List.reverse_reverse]

theorem rstripSet_all_not (chars s : LC)
    (h : ∀ c ∈ s, chars.contains c = false) : rstripSet chars s = s := by
  unfold rstripSet
  rw [dropWhile_eq_self_of _ _ (fun c hc => h c (List.mem_reverse.mp hc)),
    List.reverse_reverse]

/-- Normalization is the identity on a well-formed name. -/
theorem normalize_wf (n : LC) (hall : n.all isNameChar = true)
    (hjs : "json".toList.isSuffixOf (asciiLower n) = false) :
    _normalize_tool_name n = n := by
  have hmem : ∀ c ∈ n, isNameChar c = true := by
    intro c hc
    exact List.all_eq_true.mp hall c hc
  unfold _normalize_tool_name
  rw [trimPy_all_not_ws n (fun c hc => nameChar_not_ws (hmem c hc)),
    rstripSet_all_not _ n (fun c hc => nameChar_not_punct (hmem c hc))]
  simp only [hjs]
  rfl

theorem trimPy_renderObjC (ps : List (LC × LC)) :
    trimPy (renderObjC ps) = renderObjC ps := by
  unfold trimPy renderObjC
  rw [List.dropWhile_cons, if_neg (by decide)]
  rw [show ('{' :: (renderMembersC ps ++ ['}'])).reverse
      = '}' :: ((renderMembersC ps).reverse ++ ['{']) from by simp]
  rw [List.dropWhile_cons, if_neg (by decide)]
  rw [show ('}' :: ((renderMembersC ps).reverse ++ ['{'])).reverse
      = '{' :: (renderMembersC ps ++ ['}']) from by simp]

theorem loadsOrRepair_render (ps : List (LC × LC))
    (hs : ∀ p ∈ ps, p.1.all safeChar = true ∧ p.2.all safeChar = true) :
    loadsOrRepair (trimPy (renderObjC ps))
      = ps.map (fun p => (p.1, JVal.str p.2)) := by
  rw [trimPy_renderObjC]
  unfold loadsOrRepair
  rw [parseJsonObj_render ps hs]

theorem takeWhile_all_append (p : Char → Bool) (s : LC) (c : Char) (r : LC)
    (hs : ∀ x ∈ s, p x = true) (hc : p c = false) :
    (s ++ c :: r).takeWhile p = s ∧ (s ++ c :: r).dropWhile p = c :: r := by
  induction s with
  | nil => simp [List.takeWhile_cons, List.dropWhile_cons, hc]
  | cons a as ih =>
      have ha : p a = true := hs a (List.mem_cons_self _ _)
      have hrec := ih (fun x hx => hs x (List.mem_cons_of_mem _ hx))
      simp only [List.cons_append, List.takeWhile_cons, List.dropWhile_cons,
        ha, if_true]
      exact ⟨by rw [hrec.1], by rw [hrec.2]⟩

theorem mem_renderPairC {c : Char} {k v : LC} (hk : k.all safeChar = true)
    (hv : v.all safeChar = true) (hc : c ∈ renderPairC (k, v)) : c ≠ '}' := by
  intro he
  subst he
  simp only [renderPairC, List.mem_cons, List.mem_append,
    List.mem_singleton] at hc
  rcases hc with h | h
  · exact absurd h (by decide)
  rcases h with h | h
  · exact absurd rfl (safe_not_rbrace (List.all_eq_true.mp hk _ h))
  rcases h with h | h
  · exact absurd h (by decide)
  rcases h with h | h
  · exact absurd h (by decide)
  rcases h with h | h
  · exact absurd h (by decide)
  rcases h with h | h
  · exact absurd rfl (safe_not_rbrace (List.all_eq_true.mp hv _ h))
  · exact absurd h (by decide)

theorem tailRender_no_rbrace {c : Char} {ps : List (LC × LC)}
    (hs : ∀ p ∈ ps, p.1.all safeChar = true ∧ p.2.all safeChar = true)
    (hc : c ∈ tailRender ps) : c ≠ '}' := by
  induction ps with
  | nil => simp [tailRender] at hc
  | cons p rest ih =>
      obtain ⟨k, v⟩ := p
      simp only [tailRender, List.mem_cons, List.mem_append] at hc
      rcases hc with h | h
      · subst h; decide
      rcases h with h | h
      · exact mem_renderPairC (hs (k, v) (List.mem_cons_self _ _)).1
          (hs (k, v) (List.mem_cons_self _ _)).2 h
      · exact ih (fun q hq => hs q (List.mem_cons_of_mem _ hq)) h

theorem renderMembersC_no_rbrace {c : Char} {ps : List (LC × LC)}
    (hs : ∀ p ∈ ps, p.1.all safeChar = true ∧ p.2.all safeChar = true)
    (hc : c ∈ renderMembersC ps) : c ≠ '}' := by
  cases ps with
  | nil => simp [renderMembersC] at hc
  | cons p rest =>
      obtain ⟨k, v⟩ := p
      simp only [renderMembersC, List.mem_append] at hc
      rcases hc with h | h
      · exact mem_renderPairC (hs (k, v) (List.mem_cons_self _ _)).1
          (hs (k, v) (List.mem_cons_self _ _)).2 h
      · exact tailRender_no_rbrace (fun q hq => hs q (List.mem_cons_of_mem _ hq)) h

/-- The non-greedy group body stops at the first `}` whose look-ahead
holds: on a brace-free body it is the closing brace of the render. -/
theorem jsonGroupBody_render (body : LC) (rest : LC)
    (hb : ∀ c ∈ body, c ≠ '}') (hla : lookaheadOk rest = true) :
    jsonGroupBody (body ++ '}' :: rest) = some (body ++ ['}'], rest) := by
  induction body with
  | nil =>
      unfold jsonGroupBody
      simp only [List.nil_append]
      rw [if_pos (by simp [hla])]
  | cons c cs ih =>
      have hc : ¬ (c = '}') := hb c (List.mem_cons_self _ _)
      rw [List.cons_append]
      unfold jsonGroupBody
      rw [if_neg (by simp [hc])]
      rw [ih (fun x hx => hb x (List.mem_cons_of_mem _ hx))]
      simp

theorem findDelimJson_cons_none (c : Char) (cs : LC)
    (h : delimAt (c :: cs) = none) :
    findDelimJson (c :: cs) = findDelimJson cs := by
  conv_lhs => rw [findDelimJson.eq_def]
  dsimp only
  rw [h]

theorem delimAt_pipe (y : LC) : delimAt ('|' :: '>' :: y) = none := by
  unfold delimAt
  rw [if_neg, if_neg]
  · rw [show "|message|>".toList
        = '|' :: 'm' :: 'e' :: 's' :: 's' :: 'a' :: 'g' :: 'e' :: '|' :: '>' ::([] : LC) from rfl]
    simp [List.isPrefixOf]
  · rw [show "<|message|>".toList
        = '<' :: '|' :: 'm' :: 'e' :: 's' :: 's' :: 'a' :: 'g' :: 'e' :: '|' :: '>' ::([] : LC) from rfl]
    simp [List.isPrefixOf]

theorem delimAt_gt (y : LC) : delimAt ('>' :: y) = none := by
  unfold delimAt
  rw [if_neg, if_neg]
  · rw [show "|message|>".toList
        = '|' :: 'm' :: 'e' :: 's' :: 's' :: 'a' :: 'g' :: 'e' :: '|' :: '>' ::([] : LC) from rfl]
    simp [List.isPrefixOf]
  · rw [show "<|message|>".toList
        = '<' :: '|' :: 'm' :: 'e' :: 's' :: 's' :: 'a' :: 'g' :: 'e' :: '|' :: '>' ::([] : LC) from rfl]
    simp [List.isPrefixOf]

/-- The delimiter search on the canonical tag tail: skips `|>`, matches
`<|message|>`, and takes the shortest brace group with a valid
look-ahead. -/
theorem findDelimJson_render (args : List (LC × LC)) (rest : LC)
    (hargs : ∀ p ∈ args, p.1.all safeChar = true ∧ p.2.all safeChar = true)
    (hla : lookaheadOk rest = true) :
    findDelimJson ('|' :: '>' :: ("<|message|>".toList
        ++ (renderObjC args ++ rest)))
      = some (renderObjC args, rest) := by
  rw [findDelimJson_cons_none _ _ (delimAt_pipe _),
    findDelimJson_cons_none _ _ (delimAt_gt _)]
  rw [show "<|message|>".toList ++ (renderObjC args ++ rest)
      = '<' :: ("|message|>".toList ++ (renderObjC args ++ rest)) from rfl]
  unfold findDelimJson
  have hdel : delimAt ('<' :: ("|message|>".toList ++ (renderObjC args ++ rest)))
      = some (renderObjC args ++ rest) := by
    unfold delimAt
    rw [if_pos]
    · rw [show ('<' :: ("|message|>".toList ++ (renderObjC args ++ rest)))
          = "<|message|>".toList ++ (renderObjC args ++ rest) from rfl]
      rw [show (11 : Nat) = ("<|message|>".toList).length from rfl,
        List.drop_left]
    · exact List.isPrefixOf_iff_prefix.mpr
        (show "<|message|>".toList <+: '<' :: ("|message|>".toList
            ++ (renderObjC args ++ rest)) from ⟨renderObjC args ++ rest, rfl⟩)
  rw [hdel]
  dsimp only
  rw [show renderObjC args ++ rest
      = '{' :: (renderMembersC args ++ ('}' :: rest)) from by simp [renderObjC]]
  dsimp only
  rw [if_pos rfl,
    jsonGroupBody_render _ _ (fun c hc => renderMembersC_no_rbrace hargs hc) hla]
  dsimp only
  rw [show '{' :: (renderMembersC args ++ ['}']) = renderObjC args from rfl]

/-- A position where the marker is not a prefix never matches. -/
theorem matchStrictAt_not_marker (s : LC)
    (h : markerL.isPrefixOf s = false) : matchStrictAt s = none := by
  unfold matchStrictAt
  rw [if_neg (by simp [h])]

/-- The strict pattern matches at the marker of a canonical tag: it
captures the greedy name and the shortest look-ahead-valid brace group. -/
theorem matchStrictAt_render (nm : LC) (args : List (LC × LC)) (rest : LC)
    (hnm : nm ≠ []) (hall : nm.all isNameChar = true)
    (hargs : ∀ p ∈ args, p.1.all safeChar = true ∧ p.2.all safeChar = true)
    (hla : lookaheadOk rest = true) :
    matchStrictAt (markerL ++ (nm ++ ('|' :: '>' :: ("<|message|>".toList
        ++ (renderObjC args ++ rest)))))
      = some (nm, renderObjC args, rest) := by
  unfold matchStrictAt
  rw [if_pos (List.isPrefixOf_iff_prefix.mpr (List.prefix_append _ _)),
    show (13 : Nat) = markerL.length from rfl, List.drop_left]
  obtain ⟨ht, hd⟩ := takeWhile_all_append isNameChar nm '|'
    ('>' :: ("<|message|>".toList ++ (renderObjC args ++ rest)))
    (List.all_eq_true.mp hall) (by decide)
  rw [ht, hd, if_neg (by simp [List.isEmpty_iff, hnm]),
    findDelimJson_render args rest hargs hla]

theorem marker_not_prefix_of_ne {c : Char} (cs : LC) (h : ¬ c = 't') :
    markerL.isPrefixOf (c :: cs) = false := by
  have hb : ('t' == c) = false := beq_eq_false_iff_ne.mpr (fun he => h he.symm)
  rw [show markerL
      = 't' :: 'o' :: '=' :: 'f' :: 'u' :: 'n' :: 'c' :: 't' :: 'i' :: 'o' :: 'n' :: 's' :: '.' ::([] : LC)
      from rfl]
  simp [List.isPrefixOf, hb]

theorem marker_not_prefix_ta (cs : LC) :
    markerL.isPrefixOf ('t' :: 'a' :: cs) = false := by
  rw [show markerL
      = 't' :: 'o' :: '=' :: 'f' :: 'u' :: 'n' :: 'c' :: 't' :: 'i' :: 'o' :: 'n' :: 's' :: '.' ::([] : LC)
      from rfl]
  simp [List.isPrefixOf]

/-- Scanning walks through the `<|commentary ` prefix without matching:
the marker is not a prefix at any of its 13 positions. -/
theorem strictScan_skip_commentary (z : LC) :
    strictScan ("<|commentary ".toList ++ z) = strictScan z := by
  have step : ∀ (c : Char) (cs : LC), markerL.isPrefixOf (c :: cs) = false →
      strictScan (c :: cs) = strictScan cs := fun c cs h =>
    strictScan_cons_none c cs (matchStrictAt_not_marker _ h)
  rw [show "<|commentary ".toList ++ z
      = '<' :: '|' :: 'c' :: 'o' :: 'm' :: 'm' :: 'e' :: 'n' :: 't' :: 'a' :: 'r' :: 'y' :: ' ' ::z
      from rfl]
  rw [step '<' _ (marker_not_prefix_of_ne _ (by decide)),
    step '|' _ (marker_not_prefix_of_ne _ (by decide)),
    step 'c' _ (marker_not_prefix_of_ne _ (by decide)),
    step 'o' _ (marker_not_prefix_of_ne _ (by decide)),
    step 'm' _ (marker_not_prefix_of_ne _ (by decide)),
    step 'm' _ (marker_not_prefix_of_ne _ (by decide)),
    step 'e' _ (marker_not_prefix_of_ne _ (by decide)),
    step 'n' _ (marker_not_prefix_of_ne _ (by decide)),
    step 't' _ (marker_not_prefix_ta _),
    step 'a' _ (marker_not_prefix_of_ne _ (by decide)),
    step 'r' _ (marker_not_prefix_of_ne _ (by decide)),
    step 'y' _ (marker_not_prefix_of_ne _ (by decide)),
    step ' ' _ (marker_not_prefix_of_ne _ (by decide))]

theorem lookaheadOk_renderTags (ts : List StrictTag) :
    lookaheadOk (renderTags ts) = true := by
  cases ts with
  | nil => rfl
  | cons t rest =>
      have e : renderTags (t :: rest)
          = '<' :: '|' :: (("commentary ".toList ++ (markerL ++ (t.name
              ++ ("|><|message|>".toList ++ renderObjC t.args))))
              ++ renderTags rest) := by
        simp [renderTags, renderStrictTag]
      rw [e]
      unfold lookaheadOk
      rw [show "<|".toList = '<' :: '|' ::([] : LC) from rfl]
      simp [List.isPrefixOf]

/-- The strict `finditer` over a canonical multi-tag render yields each
tag's raw name and raw JSON group, in source order. -/
theorem strictScan_renderTags : ∀ ts : List StrictTag,
    (∀ t ∈ ts, wellFormedTag t) →
    strictScan (renderTags ts)
      = ts.map (fun t => (t.name, renderObjC t.args)) := by
  intro ts
  induction ts with
  | nil => intro _; rfl
  | cons t rest ih =>
      intro hwf
      obtain ⟨hne, hall, hjs, hargs⟩ := hwf t (List.mem_cons_self _ _)
      have e : renderTags (t :: rest)
          = "<|commentary ".toList ++ (markerL ++ (t.name ++ ('|' :: '>' ::
              ("<|message|>".toList
                ++ (renderObjC t.args ++ renderTags rest))))) := by
        simp only [renderTags, renderStrictTag,
          show "|><|message|>".toList
            = '|' :: '>' :: "<|message|>".toList from rfl]
        simp
      rw [e, strictScan_skip_commentary]
      have hm := matchStrictAt_render t.name t.args (renderTags rest)
        hne hall hargs (lookaheadOk_renderTags rest)
      rw [show markerL ++ (t.name ++ ('|' :: '>' :: ("<|message|>".toList
          ++ (renderObjC t.args ++ renderTags rest))))
          = 't' :: ("o=functions.".toList ++ (t.name ++ ('|' :: '>' ::
              ("<|message|>".toList ++ (renderObjC t.args ++ renderTags rest)))))
          from rfl] at hm ⊢
      rw [strictScan_cons_match _ _ _ _ _ hm,
        ih (fun q hq => hwf q (List.mem_cons_of_mem _ hq))]
      rfl

/-- Strict extraction decodes every canonical tag: names normalize to
themselves and the argument objects decode to their string pairs. -/
theorem strictCalls_renderTags (ts : List StrictTag)
    (hwf : ∀ t ∈ ts, wellFormedTag t) :
    strictCalls (renderTags ts)
      = ts.map (fun t => MarkupCall.mk t.name
          (t.args.map (fun p => (p.1, JVal.str p.2)))) := by
  unfold strictCalls
  rw [strictScan_renderTags ts hwf, List.map_map]
  apply List.map_congr_left
  intro t ht
  obtain ⟨hne, hall, hjs, hargs⟩ := hwf t ht
  dsimp only [Function.comp]
  rw [normalize_wf t.name hall hjs, loadsOrRepair_render t.args hargs]


/-- A concrete well-formed strict tag: a `web_search` call. -/
def tagA : StrictTag :=
  ⟨"web_search".toList,
   [("query".toList, "rust releases".toList),
    ("max_results".toList, "3".toList)]⟩

/-- A concrete well-formed strict tag: a `fetch_url` call. -/
def tagB : StrictTag :=
  ⟨"fetch_url".toList, [("url".toList, "https://example.com/a".toList)]⟩

/-! ## C7 — relaxed-form balanced-brace extraction -/

/-- C7: on the input `to=functions.web_search json {"q": "a {b} \"c\""}`
the extractor yields exactly one `web_search` call whose argument `q`
decodes to the string `a {b} "c"`, the balanced-brace scan having kept
nested braces and escaped quotes inside the string value intact. -/
theorem c7_balanced_brace :
    extract_tool_markups
      (some (.str "to=functions.web_search json \x7b\"q\": \"a \x7bb\x7d \\\"c\\\"\"\x7d".toList))
      = [⟨"web_search".toList, [("q".toList, JVal.str "a \x7bb\x7d \"c\"".toList)]⟩] := by
  decide

/-! ## C8 — gating policy -/

/-- C8: `should_allow_tools` returns true iff the lower-cased message
contains one of the fixed intent phrases or a literal `http://` or
`https://` marker; in particular it accepts the two example requests and
rejects casual chat. -/
theorem c8_gating :
    (∀ m : LC, should_allow_tools m = true ↔
      ((∃ t ∈ explicit_triggers, t <:+: asciiLower m) ∨
        "http://".toList <:+: asciiLower m ∨ "https://".toList <:+: asciiLower m)) ∧
    should_allow_tools "please search the web for rust releases".toList = true ∧
    should_allow_tools "hi, how are you".toList = false ∧
    should_allow_tools "look at https://example.com/a".toList = true := by
  refine ⟨fun m => ?_, by decide, by decide, by decide⟩
  unfold should_allow_tools
  split
  · rename_i h
    simp only [true_iff]
    rcases List.any_eq_true.mp h with ⟨t, ht, hs⟩
    exact Or.inl ⟨t, ht, (hasSub_iff _ _).mp hs⟩
  · rename_i h
    split
    · rename_i h2
      simp only [true_iff]
      have h2' : hasSub "http://".toList (asciiLower m) = true
          ∨ hasSub "https://".toList (asciiLower m) = true := by
        simpa using h2
      rcases h2' with h3 | h3
      · exact Or.inr (Or.inl ((hasSub_iff _ _).mp h3))
      · exact Or.inr (Or.inr ((hasSub_iff _ _).mp h3))
    · rename_i h2
      simp only [Bool.false_eq_true, false_iff]
      intro hd
      rcases hd with ⟨t, ht, hinf⟩ | hinf | hinf
      · exact h (List.any_eq_true.mpr ⟨t, ht, (hasSub_iff _ _).mpr hinf⟩)
      · refine h2 ?_
        rw [(hasSub_iff "http://".toList (asciiLower m)).mpr hinf]
        rfl
      · refine h2 ?_
        rw [(hasSub_iff "https://".toList (asciiLower m)).mpr hinf]
        exact Bool.or_true _

/-! ## C4 — result-count clamping -/

/-- C4 (counterexample): the code only caps the requested count above at
5 (`min(5, …)`); a requested `max_results = 0` is passed through to the
search provider as 0, outside `[1,5]` — witnessed both at the clamp
itself and by a full turn in which the provider observes a count below
1. -/
theorem c4_counterexample :
    clampK 0 = 0 ∧ ¬ (1 ≤ clampK 0) ∧
    tool_loopAux c4Backend detectSearch emptyFetch uSearch []
      = .error "k below 1".toList := by
  refine ⟨by decide, by decide, by decide⟩

/-- C4 (amended): the count actually passed to the search execution is
`min(5, requested)`: never above 5, and inside `[1,5]` whenever the
request was at least 1; smaller requests pass through unclamped. -/
theorem c4_amended_clamp : ∀ n : Int,
    clampK n ≤ 5 ∧ (1 ≤ n → 1 ≤ clampK n ∧ clampK n ≤ 5) := by
  intro n
  unfold clampK
  refine ⟨min_le_left _ _, fun h => ⟨le_min (by norm_num) h, min_le_left _ _⟩⟩

/-- C4 (witness): the amended clamp at the requested count 99. -/
theorem c4_amended_clamp_witness : clampK 99 ≤ 5 ∧ 1 ≤ clampK 99 ∧ clampK 99 ≤ 5 :=
  ⟨(c4_amended_clamp 99).1, (c4_amended_clamp 99).2 (by norm_num)⟩

/-- Observe the instrumentation counters of a `tool_loop` run. -/
def tlObserve (r : Except LC TLOut) : Option (Nat × Nat) :=
  match r with
  | .ok o => some (o.calls, o.rounds)
  | .error _ => none

set_option maxRecDepth 16384

/-! ## C1 — completion-call bound -/

/-- C1 (counterexample): against a model that emits a relaxed-form
`web_search` call, then another one in the forced follow-up, then only
empty text, `tool_loop` makes 4 completion calls and runs 2
tool-dispatch rounds in a single turn — above the claimed bounds of 3
calls and 1 round. -/
theorem c1_counterexample :
    tlObserve (tool_loopAux c1Backend emptySearch emptyFetch uSearch [])
      = some (4, 2) ∧ ¬ (4 ≤ 3) ∧ ¬ (2 ≤ 1) := by
  refine ⟨by decide, by decide, by decide⟩

/-! ## C2 — tag-free final text -/

/-- C2 (counterexample): when tools are allowed and the model twice
emits the bare `to=functions.` marker with no JSON object, no branch can
extract a call, the turn completes normally, and the returned final text
still contains the marker. -/
theorem c2_counterexample :
    (tool_loop c2Backend emptySearch emptyFetch uSearch []).toOption.map
        (fun p => hasSub markerL p.2) = some true := by
  decide

/-! ## C3 — provider failures -/

/-- C3 (counterexample): when the search provider raises, the exception
propagates out of `do_web_search` and `tool_loop`: the turn aborts with
the provider's error instead of appending a `ToolError`-shaped tool
message. -/
theorem c3_counterexample :
    tool_loopAux c1Backend boomSearch emptyFetch uSearch []
      = .error "boom".toList := by
  decide

/-- C3 (amended): only an unknown tool name is converted into the
`{"error": "unknown tool"}` result and appended as a normal tool message
with the turn continuing; a search-provider failure aborts the turn and
is surfaced by the front-end handler as an error-styled answer, leaving
the session store unchanged. -/
theorem c3_amended :
    tool_loopAux c3Backend emptySearch emptyFetch uSearch []
      = .ok ⟨[systemMsg, mkUserMsg uSearch,
              assistantMsg "to=functions.bogus \x7b\"q\": \"x\"\x7d".toList,
              toolMsg "markup-0".toList "bogus".toList errorObjDumps,
              sysMsg dirAnswer, assistantMsg "done".toList],
             "done".toList, 2, 1⟩
    ∧ chat c1Backend boomSearch emptyFetch [] "t".toList uSearch
      = ([], "Sorry, I hit an error: boom".toList) := by
  refine ⟨by decide, by decide⟩

/-! ## C9 — backend failure semantics -/

/-- C9 (counterexample): a decoded backend response with no `choices`
does not abort the turn in server.py: `chat_once` returns an empty
message dict, the loop runs its empty-answer paths, and the handler
commits a history containing two empty assistant messages — the stored
history changes and no error-styled answer is produced. -/
theorem c9_counterexample :
    chat c9Backend emptySearch emptyFetch [] "t".toList uSearch
      = ([("t".toList,
          [systemMsg, mkUserMsg uSearch, assistantMsg [], sysMsg dirEmpty,
            assistantMsg []])], [])
    ∧ (chat c9Backend emptySearch emptyFetch [] "t".toList uSearch).1 ≠ [] := by
  refine ⟨by decide, by decide⟩

/-! ## Structural lemmas about the orchestration phases -/

theorem bind_ok_iff {α β : Type} (x : Except LC α) (f : α → Except LC β) (b : β) :
    (x >>= f) = .ok b ↔ ∃ a, x = .ok a ∧ f a = .ok b := by
  cases x <;> simp [Bind.bind, Except.bind]

theorem pure_ok_iff {α : Type} (a b : α) :
    (pure a : Except LC α) = .ok b ↔ a = b := by
  simp [pure, Except.pure]

/-- Effect of one markup-call dispatch on the carried state: messages
only grow, call and round counters are untouched. -/
theorem runMarkupCall_spec (S : SearchP) (F : FetchP) (c : MarkupCall)
    (idStr : LC) (st st' : St) (h : runMarkupCall S F c idStr st = .ok st') :
    st.msgs <+: st'.msgs ∧ st'.idx = st.idx ∧ st'.rounds = st.rounds := by
  unfold runMarkupCall at h
  split at h
  · rw [bind_ok_iff] at h
    obtain ⟨k, -, h⟩ := h
    rw [bind_ok_iff] at h
    obtain ⟨out, -, h⟩ := h
    rw [pure_ok_iff] at h
    subst h
    refine ⟨?_, rfl, rfl⟩
    simp only [pushMsg]
    exact List.prefix_append _ _
  · split at h
    · split at h
      · simp at h
      · rw [bind_ok_iff] at h
        obtain ⟨mc, -, h⟩ := h
        rw [bind_ok_iff] at h
        obtain ⟨out, -, h⟩ := h
        rw [pure_ok_iff] at h
        subst h
        refine ⟨?_, rfl, rfl⟩
        simp only [pushMsg]
        exact List.prefix_append _ _
    · rw [pure_ok_iff] at h
      subst h
      refine ⟨?_, rfl, rfl⟩
      simp only [pushMsg]
      exact List.prefix_append _ _

/-- Effect of the whole markup-dispatch loop. -/
theorem dispatchMarkup_spec (S : SearchP) (F : FetchP) (pre : LC) :
    ∀ (calls : List MarkupCall) (i : Nat) (st st' : St),
    dispatchMarkup S F pre calls i st = .ok st' →
    st.msgs <+: st'.msgs ∧ st'.idx = st.idx ∧ st'.rounds = st.rounds := by
  intro calls
  induction calls with
  | nil =>
      intro i st st' h
      unfold dispatchMarkup at h
      rw [pure_ok_iff] at h
      subst h
      exact ⟨List.prefix_refl _, rfl, rfl⟩
  | cons c rest ih =>
      intro i st st' h
      unfold dispatchMarkup at h
      rw [bind_ok_iff] at h
      obtain ⟨st1, h1, h2⟩ := h
      have s1 := runMarkupCall_spec S F c (pre ++ natDigits i) st st1 h1
      have s2 := ih (i + 1) st1 st' h2
      exact ⟨s1.1.trans s2.1, by omega, by omega⟩

/-- Effect of one structured-call dispatch. -/
theorem runStructuredCall_spec (S : SearchP) (F : FetchP) (tc : OTC)
    (st st' : St) (h : runStructuredCall S F tc st = .ok st') :
    st.msgs <+: st'.msgs ∧ st'.idx = st.idx ∧ st'.rounds = st.rounds := by
  unfold runStructuredCall at h
  split at h
  · rw [bind_ok_iff] at h
    obtain ⟨k, -, h⟩ := h
    rw [bind_ok_iff] at h
    obtain ⟨out, -, h⟩ := h
    rw [pure_ok_iff] at h
    subst h
    refine ⟨?_, rfl, rfl⟩
    simp only [pushMsg]
    exact List.prefix_append _ _
  · split at h
    · rw [bind_ok_iff] at h
      obtain ⟨mc, -, h⟩ := h
      rw [bind_ok_iff] at h
      obtain ⟨out, -, h⟩ := h
      rw [pure_ok_iff] at h
      subst h
      refine ⟨?_, rfl, rfl⟩
      simp only [pushMsg]
      exact List.prefix_append _ _
    · rw [pure_ok_iff] at h
      subst h
      refine ⟨?_, rfl, rfl⟩
      simp only [pushMsg]
      exact List.prefix_append _ _

/-- Effect of the structured-dispatch loop. -/
theorem dispatchStructured_spec (S : SearchP) (F : FetchP) :
    ∀ (tcs : List OTC) (st st' : St),
    dispatchStructured S F tcs st = .ok st' →
    st.msgs <+: st'.msgs ∧ st'.idx = st.idx ∧ st'.rounds = st.rounds := by
  intro tcs
  induction tcs with
  | nil =>
      intro st st' h
      unfold dispatchStructured at h
      rw [pure_ok_iff] at h
      subst h
      exact ⟨List.prefix_refl _, rfl, rfl⟩
  | cons tc rest ih =>
      intro st st' h
      unfold dispatchStructured at h
      rw [bind_ok_iff] at h
      obtain ⟨st1, h1, h2⟩ := h
      have s1 := runStructuredCall_spec S F tc st st1 h1
      have s2 := ih st1 st' h2
      exact ⟨s1.1.trans s2.1, by omega, by omega⟩

/-- Effect of one completion call. -/
theorem stepChat_spec (B : Backend) (st : St) (m : BMsg) (st' : St)
    (h : stepChat B st = .ok (m, st')) :
    st'.msgs = st.msgs ∧ st'.idx = st.idx + 1 ∧ st'.rounds = st.rounds := by
  unfold stepChat at h
  cases hc : chat_once (B st.idx) with
  | error e => rw [hc] at h; simp [Except.map] at h
  | ok m0 =>
      rw [hc] at h
      simp only [Except.map, Except.ok.injEq, Prod.mk.injEq] at h
      obtain ⟨-, h2⟩ := h
      subst h2
      exact ⟨rfl, rfl, rfl⟩

/-- Projections of `pushMsg`. -/
theorem pushMsg_msgs (st : St) (m : Msg) : (pushMsg st m).msgs = st.msgs ++ [m] := rfl

theorem pushMsg_idx (st : St) (m : Msg) : (pushMsg st m).idx = st.idx := rfl

theorem pushMsg_rounds (st : St) (m : Msg) : (pushMsg st m).rounds = st.rounds := rfl

/-- Effect of the classification phase: messages grow, at most one more
completion call, at most one more dispatch round. -/
theorem tl_after_first_spec (B : Backend) (S : SearchP) (F : FetchP)
    (allow : Bool) (msg : BMsg) (st : St) (msg' : BMsg) (st' : St)
    (h : tl_after_first B S F allow msg st = .ok (msg', st')) :
    st.msgs <+: st'.msgs ∧ st'.idx ≤ st.idx + 1 ∧ st'.rounds ≤ st.rounds + 1 := by
  unfold tl_after_first at h
  split at h <;> (try split at h) <;> (try split at h) <;> (try split at h)
  all_goals first
    | (rw [pure_ok_iff] at h
       have h2 : st' = st := (congrArg Prod.snd h).symm
       subst h2
       exact ⟨List.prefix_refl _, by omega, by omega⟩)
    | (rw [bind_ok_iff] at h
       obtain ⟨st1, h1, h⟩ := h
       have s2 := stepChat_spec B _ _ _ h
       rw [pushMsg_msgs, pushMsg_idx, pushMsg_rounds] at s2
       dsimp only at s2
       have s1 : st.msgs <+: st1.msgs ∧ st1.idx = st.idx ∧ st1.rounds = st.rounds := by
         first
           | (have t := dispatchMarkup_spec S F _ _ _ _ _ h1
              rw [pushMsg_msgs, pushMsg_idx, pushMsg_rounds] at t
              exact ⟨(List.prefix_append _ _).trans t.1, t.2.1, t.2.2⟩)
           | (have t := dispatchStructured_spec S F _ _ _ h1
              rw [pushMsg_msgs, pushMsg_idx, pushMsg_rounds] at t
              exact ⟨(List.prefix_append _ _).trans t.1, t.2.1, t.2.2⟩)
       refine ⟨?_, by omega, by omega⟩
       rw [s2.1]
       exact s1.1.trans (List.prefix_append _ _))
    | (have s2 := stepChat_spec B _ _ _ h
       rw [pushMsg_msgs, pushMsg_msgs, pushMsg_idx, pushMsg_idx,
         pushMsg_rounds, pushMsg_rounds] at s2
       refine ⟨?_, by omega, by omega⟩
       rw [s2.1]
       exact (List.prefix_append _ _).trans (List.prefix_append _ _))

/-- Effect of the fallback phase: messages grow, at most one more call
and round. -/
theorem tl_fallback_spec (B : Backend) (S : SearchP) (F : FetchP)
    (allow : Bool) (msg : BMsg) (st : St) (fin : LC) (st' : St)
    (h : tl_fallback B S F allow msg st = .ok (fin, st')) :
    st.msgs <+: st'.msgs ∧ st'.idx ≤ st.idx + 1 ∧ st'.rounds ≤ st.rounds + 1 := by
  unfold tl_fallback at h
  split at h <;> (try split at h)
  all_goals first
    | (rw [pure_ok_iff] at h
       have h2 : st' = st := (congrArg Prod.snd h).symm
       subst h2
       exact ⟨List.prefix_refl _, by omega, by omega⟩)
    | (rw [bind_ok_iff] at h
       obtain ⟨st1, h1, h⟩ := h
       rw [bind_ok_iff] at h
       obtain ⟨p, hp, h⟩ := h
       obtain ⟨m2, st2⟩ := p
       have s2 := stepChat_spec B _ _ _ hp
       rw [pushMsg_msgs, pushMsg_idx, pushMsg_rounds] at s2
       dsimp only at s2
       have t := dispatchMarkup_spec S F _ _ _ _ _ h1
       rw [pushMsg_msgs, pushMsg_idx, pushMsg_rounds] at t
       rw [pure_ok_iff] at h
       have h2 : st' = st2 := (congrArg Prod.snd h).symm
       subst h2
       refine ⟨?_, by omega, by omega⟩
       rw [s2.1]
       exact ((List.prefix_append _ _).trans t.1).trans (List.prefix_append _ _))

/-- Effect of the empty-answer phase: messages grow, at most one more
call, no further dispatch round. -/
theorem tl_empty_spec (B : Backend) (finalIn : LC) (st : St) (fin : LC)
    (st' : St) (h : tl_empty B finalIn st = .ok (fin, st')) :
    st.msgs <+: st'.msgs ∧ st'.idx ≤ st.idx + 1 ∧ st'.rounds = st.rounds := by
  unfold tl_empty at h
  split at h
  · rw [bind_ok_iff] at h
    obtain ⟨p, hp, h⟩ := h
    obtain ⟨m2, st2⟩ := p
    have s2 := stepChat_spec B _ _ _ hp
    rw [pushMsg_msgs, pushMsg_msgs, pushMsg_idx, pushMsg_idx,
      pushMsg_rounds, pushMsg_rounds] at s2
    rw [pure_ok_iff] at h
    have h2 : st' = st2 := (congrArg Prod.snd h).symm
    subst h2
    refine ⟨?_, by omega, by omega⟩
    rw [s2.1]
    exact (List.prefix_append _ _).trans (List.prefix_append _ _)
  · rw [pure_ok_iff] at h
    have h2 : st' = st := (congrArg Prod.snd h).symm
    subst h2
    exact ⟨List.prefix_refl _, by omega, by omega⟩

/-- Inversion of a successful `tool_loopAux` run into its four phases. -/
theorem tool_loopAux_ok_inv (B : Backend) (S : SearchP) (F : FetchP)
    (user : LC) (history : List Msg) (out : TLOut)
    (h : tool_loopAux B S F user history = .ok out) :
    ∃ msg st1 msg2 st2 fin st3 fin2 st4,
      stepChat B ⟨(if history.isEmpty then [systemMsg] else history)
          ++ [mkUserMsg user], 0, 0, none, []⟩ = .ok (msg, st1)
      ∧ tl_after_first B S F (should_allow_tools user) msg st1 = .ok (msg2, st2)
      ∧ tl_fallback B S F (should_allow_tools user) msg2 st2 = .ok (fin, st3)
      ∧ tl_empty B fin st3 = .ok (fin2, st4)
      ∧ out = ⟨st4.msgs ++ [assistantMsg (tl_refusal (should_allow_tools user) fin2)],
          tl_refusal (should_allow_tools user) fin2, st4.idx, st4.rounds⟩ := by
  unfold tool_loopAux at h
  rw [bind_ok_iff] at h
  obtain ⟨p1, h1, h⟩ := h
  obtain ⟨msg, st1⟩ := p1
  dsimp only at h
  rw [bind_ok_iff] at h
  obtain ⟨p2, h2, h⟩ := h
  obtain ⟨msg2, st2⟩ := p2
  dsimp only at h
  rw [bind_ok_iff] at h
  obtain ⟨p3, h3, h⟩ := h
  obtain ⟨fin, st3⟩ := p3
  dsimp only at h
  rw [bind_ok_iff] at h
  obtain ⟨p4, h4, h⟩ := h
  obtain ⟨fin2, st4⟩ := p4
  dsimp only at h
  rw [pure_ok_iff] at h
  exact ⟨msg, st1, msg2, st2, fin, st3, fin2, st4, h1, h2, h3, h4, h.symm⟩

/-- A backend that answers plainly. -/
def helloBackend : Backend := fun _ => okResp (respText "hello".toList)

/-- The refusal substitution leaves no marker when tools were not
allowed. -/
theorem tl_refusal_clean (f : LC) :
    hasSub markerL (tl_refusal false f) = false := by
  unfold tl_refusal
  cases hm : hasSub markerL f with
  | true => simp only [Bool.not_false, Bool.true_and, hm, if_pos]; decide
  | false => simpa [hm] using hm

/-! ## C10 — result-shape invariant of `tool_loop` -/

/-- C10: whenever `tool_loop` returns normally, the returned message
list ends with an assistant message whose content is exactly the
returned final text, and it extends the caller's input history (the
source appends to a copy `history[:]`, so the input list itself is
never mutated). -/
theorem c10_invariant : ∀ (B : Backend) (S : SearchP) (F : FetchP)
    (user : LC) (history msgs : List Msg) (fin : LC),
    tool_loop B S F user history = .ok (msgs, fin) →
    msgs.getLast? = some (assistantMsg fin) ∧ history <+: msgs := by
  intro B S F user history msgs fin h
  unfold tool_loop at h
  cases ha : tool_loopAux B S F user history with
  | error e => rw [ha] at h; simp [Except.map] at h
  | ok out =>
      rw [ha] at h
      simp only [Except.map, Except.ok.injEq, Prod.mk.injEq] at h
      obtain ⟨hm, hf⟩ := h
      subst hm
      subst hf
      obtain ⟨msg, st1, msg2, st2, fin1, st3, fin2, st4, hs, h1, h2, h3, hout⟩ :=
        tool_loopAux_ok_inv B S F user history out ha
      subst hout
      constructor
      · exact List.getLast?_concat _
      · have s0 := stepChat_spec B _ _ _ hs
        have s1 := tl_after_first_spec B S F _ _ _ _ _ h1
        have s2 := tl_fallback_spec B S F _ _ _ _ _ h2
        have s3 := tl_empty_spec B _ _ _ _ h3
        dsimp only at s0
        have hbase : history
            <+: (if history.isEmpty then [systemMsg] else history) ++ [mkUserMsg user] := by
          cases history with
          | nil => exact List.nil_prefix
          | cons a t => exact List.prefix_append _ _
        calc history
            <+: (if history.isEmpty then [systemMsg] else history) ++ [mkUserMsg user] :=
              hbase
          _ = st1.msgs := s0.1.symm
          _ <+: st2.msgs := s1.1
          _ <+: st3.msgs := s2.1
          _ <+: st4.msgs := s3.1
          _ <+: st4.msgs ++ [assistantMsg (tl_refusal (should_allow_tools user) fin2)] :=
              List.prefix_append _ _

/-- C10 (witness): a plain one-answer turn on an empty history. -/
theorem c10_invariant_witness :
    [systemMsg, mkUserMsg "hi, how are you".toList,
        assistantMsg "hello".toList].getLast?
      = some (assistantMsg "hello".toList)
    ∧ ([] : List Msg) <+: [systemMsg, mkUserMsg "hi, how are you".toList,
        assistantMsg "hello".toList] :=
  c10_invariant helloBackend emptySearch emptyFetch "hi, how are you".toList []
    [systemMsg, mkUserMsg "hi, how are you".toList, assistantMsg "hello".toList]
    "hello".toList (by decide)

/-- C1 (amended): every normally-completing turn of server.py's
`tool_loop` makes at most 4 completion calls (one initial, at most one
from the classification branch, at most one from the fallback round, at
most one from the final empty-answer nudge) and at most 2 tool-dispatch
rounds. -/
theorem c1_amended_bound : ∀ (B : Backend) (S : SearchP) (F : FetchP)
    (user : LC) (history : List Msg) (out : TLOut),
    tool_loopAux B S F user history = .ok out →
    out.calls ≤ 4 ∧ out.rounds ≤ 2 := by
  intro B S F user history out h
  obtain ⟨msg, st1, msg2, st2, fin1, st3, fin2, st4, hs, h1, h2, h3, hout⟩ :=
    tool_loopAux_ok_inv B S F user history out h
  have s0 := stepChat_spec B _ _ _ hs
  have s1 := tl_after_first_spec B S F _ _ _ _ _ h1
  have s2 := tl_fallback_spec B S F _ _ _ _ _ h2
  have s3 := tl_empty_spec B _ _ _ _ h3
  subst hout
  dsimp only at s0 ⊢
  omega

/-- C1 (witness): the amended bound at a plain one-answer turn, which
makes exactly one completion call and no dispatch round. -/
theorem c1_amended_bound_witness : (1 : Nat) ≤ 4 ∧ (0 : Nat) ≤ 2 :=
  c1_amended_bound helloBackend emptySearch emptyFetch "hi, how are you".toList []
    ⟨[systemMsg, mkUserMsg "hi, how are you".toList, assistantMsg "hello".toList],
      "hello".toList, 1, 0⟩ (by decide)

/-- C2 (amended): whenever tool use is not allowed for the turn and
`tool_loop` completes normally, the returned final text never contains
the `to=functions.` marker (the refusal substitution guarantees it); a
single `strip_lm_tags` pass is applied to every model-produced
candidate, but with tools allowed the marker can survive
(`c2_counterexample`). -/
theorem c2_amended : ∀ (B : Backend) (S : SearchP) (F : FetchP)
    (user : LC) (history msgs : List Msg) (fin : LC),
    should_allow_tools user = false →
    tool_loop B S F user history = .ok (msgs, fin) →
    hasSub markerL fin = false := by
  intro B S F user history msgs fin hallow h
  unfold tool_loop at h
  cases ha : tool_loopAux B S F user history with
  | error e => rw [ha] at h; simp [Except.map] at h
  | ok out =>
      rw [ha] at h
      simp only [Except.map, Except.ok.injEq, Prod.mk.injEq] at h
      obtain ⟨-, hf⟩ := h
      subst hf
      obtain ⟨msg, st1, msg2, st2, fin1, st3, fin2, st4, -, -, -, -, hout⟩ :=
        tool_loopAux_ok_inv B S F user history out ha
      subst hout
      dsimp only
      rw [hallow]
      exact tl_refusal_clean fin2

/-- C2 (witness): the casual-chat turn is not tool-gated and its plain
answer carries no marker. -/
theorem c2_amended_witness : hasSub markerL "hello".toList = false :=
  c2_amended helloBackend emptySearch emptyFetch "hi, how are you".toList []
    [systemMsg, mkUserMsg "hi, how are you".toList, assistantMsg "hello".toList]
    "hello".toList (by decide) (by decide)

/-! ## C9 — backend transport failure -/

/-- A transport failure on the first completion aborts the whole turn
with the user-readable message. -/
theorem tool_loopAux_transport (B : Backend) (S : SearchP) (F : FetchP)
    (user : LC) (history : List Msg) (e : LC)
    (hB : B 0 = .transportError e) :
    tool_loopAux B S F user history = .error (unreachText e) := by
  simp only [tool_loopAux, stepChat, hB, chat_once, Except.map, Bind.bind,
    Except.bind]

/-- A backend that is always unreachable. -/
def transportBackend : Backend := fun _ => .transportError "net down".toList

/-- C9 (amended): a transport failure contacting the backend aborts the
turn; the front-end handler surfaces it as the error-styled answer
`Sorry, I hit an error: Could not reach LM Studio …`, and the session
store — the persisted history — is left completely unchanged.  (A
no-`choices` response, by contrast, does not abort: see
`c9_counterexample`.) -/
theorem c9_amended : ∀ (B : Backend) (S : SearchP) (F : FetchP)
    (ss : List (LC × List Msg)) (thread user e : LC),
    user ≠ [] → B 0 = .transportError e →
    chat B S F ss thread user
      = (ss, "Sorry, I hit an error: ".toList ++ unreachText e) := by
  intro B S F ss thread user e hu hB
  unfold chat
  rw [if_neg (by simpa [List.isEmpty_iff] using hu)]
  unfold tool_loop
  rw [tool_loopAux_transport B S F user (sessionsGet ss thread) e hB]
  rfl

/-- C9 (witness): the transport-failure reply on an empty session
store. -/
theorem c9_amended_witness :
    chat transportBackend emptySearch emptyFetch [] "t".toList "hi".toList
      = ([], "Sorry, I hit an error: ".toList ++ unreachText "net down".toList) :=
  c9_amended transportBackend emptySearch emptyFetch [] "t".toList "hi".toList
    "net down".toList (by decide) rfl

/-! ## C5 — history pruning -/

/-- Total serialized length of a message list. -/
def sumLens (l : List Msg) : Nat := (l.map contentLen).sum

theorem sumLens_nil : sumLens [] = 0 := rfl

theorem sumLens_cons (m : Msg) (l : List Msg) :
    sumLens (m :: l) = contentLen m + sumLens l := by
  simp [sumLens]

/-- The accumulation loop keeps a prefix of its input, reaches the
budget unless it kept everything, and stays below the budget before its
last (crossing) element. -/
theorem pruneGo_spec (max : Nat) : ∀ (l : List Msg) (t : Nat),
    (pruneGo max l t) <+: l
    ∧ (pruneGo max l t = l ∨ max ≤ t + sumLens (pruneGo max l t))
    ∧ (t + sumLens (pruneGo max l t).dropLast < max
        ∨ (pruneGo max l t).dropLast = []) := by
  intro l
  induction l with
  | nil =>
      intro t
      refine ⟨List.prefix_refl _, Or.inl rfl, Or.inr rfl⟩
  | cons m rest ih =>
      intro t
      unfold pruneGo
      by_cases hc : max ≤ t + contentLen m
      · rw [if_pos hc]
        refine ⟨⟨rest, rfl⟩, Or.inr (by simpa [sumLens_cons, sumLens_nil] using hc),
          Or.inr (by simp)⟩
      · rw [if_neg hc]
        obtain ⟨ihp, ihd, ihs⟩ := ih (t + contentLen m)
        refine ⟨?_, ?_, ?_⟩
        · obtain ⟨u, hu⟩ := ihp
          exact ⟨u, by simp [hu]⟩
        · rcases ihd with h | h
          · left; rw [h]
          · right
            rw [sumLens_cons]
            omega
        · cases hr : pruneGo max rest (t + contentLen m) with
          | nil => right; simp
          | cons x xs =>
              left
              rw [hr] at ihs
              rcases ihs with hs | hs
              · rw [List.dropLast_cons₂, sumLens_cons]
                omega
              · have hxs : xs = [] := by
                  cases xs with
                  | nil => rfl
                  | cons y ys => simp at hs
                subst hxs
                simp only [List.dropLast_cons₂, List.dropLast_single, sumLens_cons,
                  sumLens_nil]
                omega

theorem sumLens_reverse (l : List Msg) : sumLens l.reverse = sumLens l := by
  simp [sumLens, List.map_reverse, List.sum_reverse]

/-- The non-system part of a pruned history is exactly the kept
suffix. -/
theorem prune_filter_nonSys (msgs : List Msg) (max : Nat) :
    (prune_history msgs max).filter nonSysB
      = (pruneGo max ((msgs.filter nonSysB).reverse) 0).reverse := by
  by_cases h : msgs.isEmpty
  · have : msgs = [] := List.isEmpty_iff.mp h
    subst this
    simp [prune_history, pruneGo]
  · unfold prune_history
    rw [if_neg h, List.filter_append]
    have h1 : ((msgs.filter isSysB).take 1).filter nonSysB = [] := by
      rw [List.filter_eq_nil_iff]
      intro a ha
      have := (List.mem_filter.mp (List.mem_of_mem_take ha)).2
      simp only [nonSysB, isSysB] at this ⊢
      simp only [decide_not]
      simp only [this, Bool.not_true, Bool.false_eq_true, not_false_eq_true,
        decide_eq_false]
    have h2 : ((pruneGo max ((msgs.filter nonSysB).reverse) 0).reverse).filter nonSysB
        = (pruneGo max ((msgs.filter nonSysB).reverse) 0).reverse := by
      rw [List.filter_eq_self]
      intro a ha
      have ha2 : a ∈ pruneGo max ((msgs.filter nonSysB).reverse) 0 := by
        simpa using ha
      have hsub : a ∈ (msgs.filter nonSysB).reverse :=
        ((pruneGo_spec max _ 0).1.sublist.subset) ha2
      exact (List.mem_filter.mp (by simpa using hsub)).2
    rw [h1, h2, List.nil_append]

/-- C5 (amended): `prune_history` keeps at most one system message; the
kept non-system messages form a suffix of the input's non-system
messages — their relative order is preserved — but the single kept
system message (the first one found) is always moved to the front, which
can reorder it relative to non-system messages that preceded it
(`c5_counterexample`); the budget is a soft cap: either everything
non-system is kept, or the kept part reaches the budget, and it stays
under the budget before its oldest (crossing) message — that crossing
message is kept in full. -/
theorem c5_amended_prune : ∀ (msgs : List Msg) (max : Nat),
    ((prune_history msgs max).countP isSysB ≤ 1)
    ∧ ((prune_history msgs max).filter nonSysB <:+ msgs.filter nonSysB)
    ∧ ((prune_history msgs max).filter nonSysB = msgs.filter nonSysB
        ∨ max ≤ sumLens ((prune_history msgs max).filter nonSysB))
    ∧ (sumLens (((prune_history msgs max).filter nonSysB).drop 1) < max
        ∨ ((prune_history msgs max).filter nonSysB).drop 1 = []) := by
  intro msgs max
  obtain ⟨hpre, hall, hsoft⟩ := pruneGo_spec max ((msgs.filter nonSysB).reverse) 0
  refine ⟨?_, ?_, ?_, ?_⟩
  · by_cases h : msgs.isEmpty
    · have : msgs = [] := List.isEmpty_iff.mp h
      subst this
      simp [prune_history]
    · unfold prune_history
      rw [if_neg h, List.countP_append]
      have hc1 : ((msgs.filter isSysB).take 1).countP isSysB
          ≤ ((msgs.filter isSysB).take 1).length := List.countP_le_length _
      have hc2 : ((msgs.filter isSysB).take 1).length ≤ 1 := by
        simp [List.length_take]
      have hc3 : ((pruneGo max ((msgs.filter nonSysB).reverse) 0).reverse).countP isSysB
          = 0 := by
        rw [List.countP_eq_zero]
        intro a ha
        have ha2 : a ∈ pruneGo max ((msgs.filter nonSysB).reverse) 0 := by
          simpa using ha
        have hsub : a ∈ (msgs.filter nonSysB).reverse :=
          (hpre.sublist.subset) ha2
        have := (List.mem_filter.mp (by simpa using hsub)).2
        simp only [nonSysB, isSysB, decide_not] at this ⊢
        intro hcon
        rw [hcon] at this
        simp at this
      omega
  · rw [prune_filter_nonSys]
    have := List.reverse_suffix.mpr hpre
    simpa using this
  · rw [prune_filter_nonSys]
    rcases hall with h | h
    · left
      rw [h]
      simp
    · right
      rw [sumLens_reverse]
      omega
  · rw [prune_filter_nonSys]
    rcases hsoft with h | h
    · left
      rw [List.drop_one, List.tail_reverse, sumLens_reverse]
      omega
    · right
      rw [List.drop_one, List.tail_reverse, h]
      rfl

/-- C5 (counterexample): a system message that is not first in the input
is moved to the front by `prune_history`, so the output is not a
subsequence of the input in the input's order. -/
theorem c5_counterexample :
    prune_history [mkUserMsg "hello".toList, sysMsg "s".toList] 100
      = [sysMsg "s".toList, mkUserMsg "hello".toList]
    ∧ ¬ List.Sublist [sysMsg "s".toList, mkUserMsg "hello".toList]
        [mkUserMsg "hello".toList, sysMsg "s".toList] := by
  refine ⟨by decide, ?_⟩
  decide

/-- C6: a raw model output consisting of N well-formed strict-form
tool-call tags (marker, function name, message delimiter, flat JSON
object bounded by the next tag delimiter or the end of the text) makes
the extractor return exactly N calls, in source order, with the JSON
arguments correctly decoded; and since at least one strict-form match is
found, the output is exactly the strict matches — the relaxed-form scan
is skipped entirely. -/
theorem c6_strict_extraction (ts : List StrictTag)
    (hwf : ∀ t ∈ ts, wellFormedTag t) (hne : ts ≠ []) :
    extract_tool_markups (some (.str (renderTags ts)))
        = ts.map (fun t => MarkupCall.mk t.name
            (t.args.map (fun p => (p.1, JVal.str p.2))))
    ∧ extract_tool_markups (some (.str (renderTags ts)))
        = strictCalls (renderTags ts) := by
  obtain ⟨t, rest, rfl⟩ : ∃ t rest, ts = t :: rest := by
    cases ts with
    | nil => exact absurd rfl hne
    | cons a b => exact ⟨a, b, rfl⟩
  have hemp : (renderTags (t :: rest)).isEmpty = false := by
    simp [renderTags, renderStrictTag]
  have hsub : hasSub markerL (renderTags (t :: rest)) = true := by
    rw [hasSub_iff]
    exact ⟨"<|commentary ".toList,
      (t.name ++ ("|><|message|>".toList ++ renderObjC t.args)) ++ renderTags rest,
      by simp [renderTags, renderStrictTag]⟩
  have hcalls := strictCalls_renderTags (t :: rest) hwf
  have hcne : (strictCalls (renderTags (t :: rest))).isEmpty = false := by
    rw [hcalls]
    simp
  have hext : extract_tool_markups (some (.str (renderTags (t :: rest))))
      = strictCalls (renderTags (t :: rest)) := by
    unfold extract_tool_markups
    dsimp only [as_text]
    rw [if_neg (by simp [hemp, hsub]), if_pos (by simp [hcne])]
  exact ⟨hext.trans hcalls, hext⟩

/-- C6 (witness): two concrete tags — a `web_search` call and a
`fetch_url` call — are extracted in order with their decoded arguments,
the output coinciding with the strict matches. -/
theorem c6_strict_extraction_witness :
    extract_tool_markups (some (.str (renderTags [tagA, tagB])))
      = [MarkupCall.mk "web_search".toList
           [("query".toList, JVal.str "rust releases".toList),
            ("max_results".toList, JVal.str "3".toList)],
         MarkupCall.mk "fetch_url".toList
           [("url".toList, JVal.str "https://example.com/a".toList)]]
    ∧ extract_tool_markups (some (.str (renderTags [tagA, tagB])))
      = strictCalls (renderTags [tagA, tagB]) := by
  have h := c6_strict_extraction [tagA, tagB] (by decide) (by decide)
  exact ⟨h.1.trans (by decide), h.2⟩
